import Mathlib

/-!
Verification of the readability extraction engine (`readability_lxml.py`):
a shallow embedding of its data model and algorithms, with theorems checking
the natural-language specification against the code.

Strings are modelled as `List Char`; the floating-point scores of the code are
modelled by exact rationals (`ℚ`); the lxml element tree is modelled by a rose
tree with the lxml text/tail conventions.
-/

set_option autoImplicit false

namespace Readability

/-- Python whitespace characters (the default set of `str.strip`). -/
def isWs (c : Char) : Bool :=
  c = ' ' || c = '\t' || c = '\n' || c = '\r' || c = '\x0b' || c = '\x0c'

/-- Modelled from the spec: `trim` is imported from the repository's `utils` module,
which is not among the given sources.  The spec (§3, §4.4) and the comment in
`sanitize` ("Count the text length excluding any surrounding whitespace") describe
it as removing the surrounding whitespace of a string. -/
def trim (l : List Char) : List Char :=
  ((l.dropWhile isWs).reverse.dropWhile isWs).reverse

/-- `text_length`-style length of a trimmed string. -/
def trimLen (l : List Char) : Nat := (trim l).length

theorem trimLen_eq (l : List Char) :
    trimLen l = (((l.dropWhile isWs).reverse.dropWhile isWs)).length := by
  simp [trimLen, trim]

theorem length_dropWhile_le' (p : Char → Bool) (l : List Char) :
    (l.dropWhile p).length ≤ l.length :=
  (List.dropWhile_sublist p).length_le

theorem trimLen_le_length (l : List Char) : trimLen l ≤ l.length := by
  rw [trimLen_eq]
  calc ((l.dropWhile isWs).reverse.dropWhile isWs).length
      ≤ (l.dropWhile isWs).reverse.length := length_dropWhile_le' _ _
    _ = (l.dropWhile isWs).length := by simp
    _ ≤ l.length := length_dropWhile_le' _ _

theorem trimLen_superadd (x y : List Char) :
    trimLen x + trimLen y ≤ trimLen (x ++ y) := by
  rw [trimLen_eq, trimLen_eq, trimLen_eq]
  rw [List.dropWhile_append]
  by_cases hx : x.dropWhile isWs = []
  · -- `x` is pure whitespace: it vanishes from both sides
    simp [hx]
  · simp only [hx, List.isEmpty_eq_true, if_false, List.reverse_append, List.dropWhile_append]
    by_cases hy : y.reverse.dropWhile isWs = []
    · -- `y` is pure whitespace
      have hy0 : y.dropWhile isWs = [] := by
        rw [List.dropWhile_eq_nil_iff] at hy ⊢
        intro c hc
        exact hy c (by simpa using hc)
      simp [hy, hy0]
    · simp only [hy, List.isEmpty_eq_true, if_false]
      -- decompose reverse y as reverse (dropWhile y) ++ whitespace
      have hsplit : y.reverse = (y.dropWhile isWs).reverse ++ (y.takeWhile isWs).reverse := by
        rw [← List.reverse_append, List.takeWhile_append_dropWhile]
      have hws : ((y.takeWhile isWs).reverse).dropWhile isWs = [] := by
        rw [List.dropWhile_eq_nil_iff]
        intro c hc
        exact List.mem_takeWhile_imp (List.mem_reverse.mp hc)
      have hdecomp :
          y.reverse.dropWhile isWs
            = ((y.dropWhile isWs).reverse.dropWhile isWs) ++ (y.takeWhile isWs).reverse := by
        rw [hsplit, List.dropWhile_append]
        by_cases hz : (y.dropWhile isWs).reverse.dropWhile isWs = []
        · exfalso
          apply hy
          rw [hsplit, List.dropWhile_append, if_pos (by simp [hz]), hws]
        · simp [hz]
      have h1 : ((y.dropWhile isWs).reverse.dropWhile isWs).length
          ≤ (y.reverse.dropWhile isWs).length := by
        rw [hdecomp]; simp
      have h2 : ((x.dropWhile isWs).reverse.dropWhile isWs).length
          ≤ (x.dropWhile isWs).reverse.length :=
        length_dropWhile_le' _ _
      simp only [List.length_append, List.length_reverse] at *
      omega

/-! ### The element tree

An lxml element carries a tag name, an attribute mapping, leading text
(`.text`), trailing text (`.tail`, the text between the element and its next
sibling) and an ordered list of child elements.  `None` texts are represented
by the empty string (the code only ever tests them for truthiness or
concatenates them). -/

inductive HNode : Type
  | mk (tag : String) (attrs : List (String × List Char)) (text tail : List Char)
      (children : List HNode)

def HNode.tag : HNode → String
  | .mk t _ _ _ _ => t

def HNode.attrs : HNode → List (String × List Char)
  | .mk _ a _ _ _ => a

def HNode.text : HNode → List Char
  | .mk _ _ tx _ _ => tx

def HNode.tail : HNode → List Char
  | .mk _ _ _ tl _ => tl

def HNode.children : HNode → List HNode
  | .mk _ _ _ _ ch => ch

/-- `elem.get(key)`: attribute lookup. -/
def HNode.attr (n : HNode) (k : String) : Option (List Char) :=
  (n.attrs.find? (fun kv => kv.1 == k)).map (fun kv => kv.2)

-- `elem.text_content()`: all text of the subtree in document order (the
-- element's own tail excluded, the children's tails included).
mutual

def textContent : HNode → List Char
  | .mk _ _ tx _ ch => tx ++ textContentList ch

def textContentList : List HNode → List Char
  | [] => []
  | c :: cs => textContent c ++ c.tail ++ textContentList cs

end

/-- `text_length(elem) = len(trim(elem.text_content()))`. -/
def textLen (n : HNode) : Nat := trimLen (textContent n)

-- All proper descendants of a node in document (pre-)order, each paired with
-- its path (the list of child indices leading to it).
mutual

def descendants : HNode → List (List Nat × HNode)
  | .mk _ _ _ _ ch => descList 0 ch

def descList : Nat → List HNode → List (List Nat × HNode)
  | _, [] => []
  | i, c :: cs =>
      ([i], c) :: ((descendants c).map (fun pn => (i :: pn.1, pn.2)) ++ descList (i + 1) cs)

end

/-- Navigate to the node at a path. -/
def nodeAt : List Nat → HNode → Option HNode
  | [], n => some n
  | i :: p, n =>
      match n.children[i]? with
      | none => none
      | some c => nodeAt p c

/-- Total version of `nodeAt` (all paths used by the algorithms are valid). -/
def nodeAtD (t : HNode) (p : List Nat) : HNode := (nodeAt p t).getD t

/-- `node.findall(".//tag")`: the proper descendants carrying a given tag,
in document order, with their paths. -/
def findallTag (t : HNode) (tag : String) : List (List Nat × HNode) :=
  (descendants t).filter (fun pn => pn.2.tag == tag)

/-- `Document.tags(node, *tag_names)` (readability_lxml.py lines 339-342):
for each tag name in turn, all matching descendants in document order. -/
def tagsPairs (t : HNode) (tagNames : List String) : List (List Nat × HNode) :=
  tagNames.flatMap (fun tg => findallTag t tg)

/-- `Document.reverse_tags(node, *tag_names)` (readability_lxml.py lines
344-347): for each tag name in turn, the matching descendants in reversed
document order. -/
def reverseTags (t : HNode) (tagNames : List String) : List (List Nat × HNode) :=
  tagNames.flatMap (fun tg => (findallTag t tg).reverse)

/-! ### Pattern tables and scoring primitives

The `negativeRe`/`positiveRe`/`unlikelyCandidatesRe`/`okMaybeItsACandidateRe`
patterns of the source are case-insensitive alternations of literal tokens;
`re.search` on them succeeds exactly when one of the tokens occurs in the
string, case-insensitively. -/

def ciEq (a b : Char) : Bool := a.toLower == b.toLower

def ciBegins : List Char → List Char → Bool
  | [], _ => true
  | _ :: _, [] => false
  | a :: x, b :: y => ciEq a b && ciBegins x y

/-- Case-insensitive substring search for one literal token. -/
def ciSearch (pat : List Char) : List Char → Bool
  | [] => pat.isEmpty
  | b :: rest => ciBegins pat (b :: rest) || ciSearch pat rest

/-- `re.search` on an alternation of literal tokens. -/
def searchAny (pats : List (List Char)) (s : List Char) : Bool :=
  pats.any (fun p => ciSearch p s)

def negativeTokens : List (List Char) :=
  ["combx", "comment", "com-", "contact", "foot", "footer", "footnote", "masthead",
   "media", "meta", "outbrain", "promo", "related", "scroll", "shoutbox", "sidebar",
   "sponsor", "shopping", "tags", "tool", "widget"].map String.data

def positiveTokens : List (List Char) :=
  ["article", "body", "content", "entry", "hentry", "main", "page", "pagination",
   "post", "text", "blog", "story"].map String.data

def unlikelyTokens : List (List Char) :=
  ["combx", "comment", "community", "disqus", "extra", "foot", "header", "menu",
   "remark", "rss", "shoutbox", "sidebar", "sponsor", "ad-break", "agegate",
   "pagination", "pager", "popup", "tweet", "twitter"].map String.data

def okMaybeTokens : List (List Char) :=
  ["and", "article", "body", "column", "main", "shadow"].map String.data

/-- `Document.class_weight` (lines 272-279). -/
def classWeight (n : HNode) : ℚ :=
  let wFor : Option (List Char) → ℚ := fun a? =>
    match a? with
    | none => 0
    | some a =>
        (if searchAny negativeTokens a then (-25 : ℚ) else 0)
          + (if searchAny positiveTokens a then (25 : ℚ) else 0)
  wFor (n.attr "class") + wFor (n.attr "id")

def DIV_SCORES : List String := ["div", "article"]
def BLOCK_SCORES : List String := ["pre", "td", "blockquote"]
def BAD_ELEM_SCORES : List String :=
  ["address", "ol", "ul", "dl", "dd", "dt", "li", "form", "aside"]
def STRUCTURE_SCORES : List String :=
  ["h1", "h2", "h3", "h4", "h5", "h6", "th", "header", "footer", "nav"]

/-- The score a `Candidate` is created with: `Document.score_node`
(lines 281-292). -/
def scoreNodeQ (n : HNode) : ℚ :=
  let name := n.tag.toLower
  classWeight n +
    (if name ∈ DIV_SCORES then 5
     else if name ∈ BLOCK_SCORES then 3
     else if name ∈ BAD_ELEM_SCORES then -3
     else if name ∈ STRUCTURE_SCORES then -5
     else 0)

/-- `Document.get_link_density` (lines 222-225): descendant anchor text length
over the element's own text length (at least 1). -/
def getLinkDensity (n : HNode) : ℚ :=
  let totalLength : Nat := max (textLen n) 1
  let linkLength : Nat := (((findallTag n "a").map (fun pn => textLen pn.2)).sum)
  (linkLength : ℚ) / (totalLength : ℚ)

/-! ### C6: link density -/

theorem sizeOf_lt_of_mem_children {c n : HNode} (h : c ∈ n.children) :
    sizeOf c < sizeOf n := by
  cases n with
  | mk t a tx tl ch =>
      simp only [HNode.children] at h
      have := List.sizeOf_lt_of_mem h
      simp only [HNode.mk.sizeOf_spec]
      omega

theorem HNode.inductionOn (motive : HNode → Prop)
    (h : ∀ n : HNode, (∀ c ∈ n.children, motive c) → motive n) : ∀ n, motive n :=
  fun n => h n (fun c hc => HNode.inductionOn motive h c)
termination_by n => sizeOf n
decreasing_by exact sizeOf_lt_of_mem_children hc

@[simp] theorem textContent_mk (t : String) (a : List (String × List Char))
    (tx tl : List Char) (ch : List HNode) :
    textContent (.mk t a tx tl ch) = tx ++ textContentList ch := by
  rw [textContent]

@[simp] theorem textContentList_nil : textContentList [] = [] := by
  rw [textContentList]

@[simp] theorem textContentList_cons (c : HNode) (cs : List HNode) :
    textContentList (c :: cs) = textContent c ++ c.tail ++ textContentList cs := by
  rw [textContentList]

/-- The trimmed lengths of the children's contents are jointly bounded by the
parent's trimmed content length. -/
theorem sum_textLen_children_le (ch : List HNode) :
    (ch.map textLen).sum ≤ trimLen (textContentList ch) := by
  induction ch with
  | nil => simp [trimLen, trim]
  | cons c cs ih =>
      simp only [List.map_cons, List.sum_cons, textContentList_cons]
      show trimLen (textContent c) + (cs.map textLen).sum ≤ _
      calc trimLen (textContent c) + (cs.map textLen).sum
          ≤ trimLen (textContent c) + trimLen (textContentList cs) := by omega
        _ ≤ trimLen (textContent c) + trimLen (c.tail ++ textContentList cs) := by
            have := trimLen_superadd c.tail (textContentList cs)
            omega
        _ ≤ trimLen (textContent c ++ (c.tail ++ textContentList cs)) :=
            trimLen_superadd _ _
        _ = trimLen (textContent c ++ c.tail ++ textContentList cs) := by
            rw [List.append_assoc]

/-- The proper-descendant nodes of an element, in document order. -/
def nodesOf (n : HNode) : List HNode := (descendants n).map Prod.snd

@[simp] theorem descList_map_snd (i : Nat) (ch : List HNode) :
    (descList i ch).map Prod.snd = ch.flatMap (fun c => c :: nodesOf c) := by
  induction ch generalizing i with
  | nil => rw [descList]; rfl
  | cons c cs ih =>
      rw [descList]
      simp only [List.map_cons, List.map_append, List.map_map, List.flatMap_cons]
      rw [ih]
      congr 1

theorem nodesOf_mk (t : String) (a : List (String × List Char))
    (tx tl : List Char) (ch : List HNode) :
    nodesOf (.mk t a tx tl ch) = ch.flatMap (fun c => c :: nodesOf c) := by
  rw [nodesOf, descendants, descList_map_snd]

theorem nodesOf_children {n c : HNode} (hc : c ∈ n.children) :
    c ∈ nodesOf n ∧ ∀ m ∈ nodesOf c, m ∈ nodesOf n := by
  cases n with
  | mk t a tx tl ch =>
      simp only [HNode.children] at hc
      rw [nodesOf_mk]
      constructor
      · exact List.mem_flatMap.mpr ⟨c, hc, by simp⟩
      · intro m hm
        exact List.mem_flatMap.mpr ⟨c, hc, by simp [hm]⟩

/-- Sum of trimmed anchor descendant text lengths: the numerator of
`get_link_density`. -/
def anchorSum (n : HNode) : Nat :=
  (((findallTag n "a").map (fun pn => textLen pn.2)).sum)

theorem getLinkDensity_eq (n : HNode) :
    getLinkDensity n = (anchorSum n : ℚ) / ((max (textLen n) 1 : Nat) : ℚ) := rfl

theorem anchorSum_eq_nodes (n : HNode) :
    anchorSum n = (((nodesOf n).filter (fun m => m.tag == "a")).map textLen).sum := by
  rw [anchorSum, findallTag, nodesOf, List.filter_map]
  rw [List.map_map]
  rfl

theorem anchorSum_mk (t : String) (a : List (String × List Char))
    (tx tl : List Char) (ch : List HNode) :
    anchorSum (.mk t a tx tl ch)
      = (ch.map (fun c => (if c.tag == "a" then textLen c else 0) + anchorSum c)).sum := by
  rw [anchorSum_eq_nodes, nodesOf_mk]
  induction ch with
  | nil => simp
  | cons c cs ih =>
      simp only [List.flatMap_cons, List.filter_append, List.map_append, List.sum_append,
        List.map_cons, List.sum_cons, ih, List.filter_cons]
      rw [anchorSum_eq_nodes]
      by_cases hc : c.tag == "a" <;> simp [hc]

/-- No anchor element of the subtree (the root included) has an anchor among
its proper descendants. -/
def noNestA (n : HNode) : Bool :=
  (n :: nodesOf n).all (fun m => !(m.tag == "a") || (findallTag m "a").isEmpty)

theorem noNestA_child {n c : HNode} (h : noNestA n = true) (hc : c ∈ n.children) :
    noNestA c = true := by
  rw [noNestA, List.all_eq_true] at h ⊢
  intro m hm
  rcases List.mem_cons.mp hm with hm | hm
  · exact h m (by simp [hm, (nodesOf_children hc).1])
  · exact h m (by simp [(nodesOf_children hc).2 m hm])

theorem anchorSum_self_le (n : HNode) (h : noNestA n = true) :
    anchorSum n + (if n.tag == "a" then textLen n else 0) ≤ textLen n := by
  induction n using HNode.inductionOn with
  | _ n ih =>
      by_cases ha : n.tag == "a"
      · -- an anchor with no nested anchors contributes exactly its own text
        rw [noNestA, List.all_eq_true] at h
        have := h n (by simp)
        simp only [ha, Bool.not_true, Bool.false_or, List.isEmpty_eq_true] at this
        have hz : anchorSum n = 0 := by rw [anchorSum, this]; simp
        simp [ha, hz]
      · simp only [ha, if_neg, Bool.false_eq_true, ite_false, Nat.add_zero]
        cases n with
        | mk t a tx tl ch =>
            rw [anchorSum_mk]
            have hstep : (ch.map (fun c => (if c.tag == "a" then textLen c else 0) + anchorSum c)).sum
                ≤ (ch.map textLen).sum := by
              apply List.sum_le_sum
              intro c hcm
              have h1 := ih c (by simpa [HNode.children] using hcm)
                (noNestA_child h (by simpa [HNode.children] using hcm))
              omega
            have h2 := sum_textLen_children_le ch
            have h3 : trimLen (textContentList ch) ≤ trimLen (tx ++ textContentList ch) := by
              have := trimLen_superadd tx (textContentList ch)
              omega
            have h4 : textLen (HNode.mk t a tx tl ch) = trimLen (tx ++ textContentList ch) := by
              rw [textLen, textContent_mk]
            omega

/-- C6, corrected: with no anchor nested inside another anchor, the link
density is in `[0, 1]`, and with no anchor descendants at all it is `0`. -/
theorem C6_link_density_unit_interval (n : HNode) (h : noNestA n = true) :
    0 ≤ getLinkDensity n ∧ getLinkDensity n ≤ 1
      ∧ (findallTag n "a" = [] → getLinkDensity n = 0) := by
  rw [getLinkDensity_eq]
  have hden : (0 : ℚ) < ((max (textLen n) 1 : Nat) : ℚ) := by
    have : 1 ≤ max (textLen n) 1 := le_max_right _ _
    exact_mod_cast Nat.lt_of_lt_of_le Nat.zero_lt_one this
  refine ⟨div_nonneg (by positivity) hden.le, ?_, ?_⟩
  · rw [div_le_one hden]
    have hle : anchorSum n ≤ textLen n := by
      have := anchorSum_self_le n h
      omega
    have : anchorSum n ≤ max (textLen n) 1 := le_trans hle (le_max_left _ _)
    exact_mod_cast this
  · intro hempty
    have : anchorSum n = 0 := by rw [anchorSum, hempty]; simp
    rw [this]
    simp

/-- Witness for C6: a paragraph holding one non-nested anchor. -/
theorem C6_link_density_unit_interval_witness :
    noNestA (HNode.mk "p" [] "read ".data [] [HNode.mk "a" [] "more".data [] []]) = true
      ∧ (0 ≤ getLinkDensity (HNode.mk "p" [] "read ".data [] [HNode.mk "a" [] "more".data [] []])
          ∧ getLinkDensity (HNode.mk "p" [] "read ".data [] [HNode.mk "a" [] "more".data [] []]) ≤ 1
          ∧ (findallTag (HNode.mk "p" [] "read ".data [] [HNode.mk "a" [] "more".data [] []]) "a" = []
              → getLinkDensity (HNode.mk "p" [] "read ".data [] [HNode.mk "a" [] "more".data [] []]) = 0)) :=
  ⟨by decide, C6_link_density_unit_interval _ (by decide)⟩

/-- A `div` holding an anchor with another anchor nested inside it. -/
def nestedAnchorDiv : HNode :=
  HNode.mk "div" [] [] [] [HNode.mk "a" [] "x".data [] [HNode.mk "a" [] "y".data [] []]]

/-- C6, counterexample to the claim as stated: with one anchor nested in
another, `get_link_density` exceeds 1 (the nested anchor's text is counted
twice by `findall(".//a")`). -/
theorem C6_counterexample :
    getLinkDensity nestedAnchorDiv = 3 / 2 ∧ ¬(getLinkDensity nestedAnchorDiv ≤ 1) := by
  have h1 : anchorSum nestedAnchorDiv = 3 := by decide
  have h2 : textLen nestedAnchorDiv = 2 := by decide
  rw [getLinkDensity_eq, h1, h2]
  norm_num

/-! ### C1: `score_paragraphs` accumulation (lines 227-257)

The `candidates` dictionary (keyed by element identity) together with the
`ordered` list is modelled by an insertion-ordered association list keyed by
element paths. -/

abbrev Path := List Nat

abbrev CandMap := List (Path × ℚ)

def alLookup (m : CandMap) (p : Path) : Option ℚ :=
  (m.find? (fun kv => kv.1 == p)).map (fun kv => kv.2)

/-- `if node not in candidates: candidates[node] = self.score_node(node)`. -/
def ensureCand (t : HNode) (m : CandMap) (p : Path) : CandMap :=
  if (alLookup m p).isSome then m else m ++ [(p, scoreNodeQ (nodeAtD t p))]

/-- `candidates[node].score += delta`. -/
def addScore (m : CandMap) (p : Path) (d : ℚ) : CandMap :=
  m.map (fun kv => if kv.1 == p then (kv.1, kv.2 + d) else kv)

/-- Python `text.split(",")`: the comma-separated pieces (always at least
one piece). -/
def splitComma : List Char → List (List Char)
  | [] => [[]]
  | c :: rest =>
      if c = ',' then [] :: splitComma rest
      else
        match splitComma rest with
        | [] => [[c]]
        | piece :: more => (c :: piece) :: more

/-- The per-paragraph contribution (line 251):
`1 + len(elem_text.split(",")) + min(elem_text_len / 100, 3)`. -/
def paraContribution (n : HNode) : ℚ :=
  let elemText := trim (textContent n)
  1 + ((splitComma elemText).length : ℚ) + min ((elemText.length : ℚ) / 100) 3

/-- One iteration of the paragraph loop of `score_paragraphs`
(lines 230-257), processing the element at path `q`. -/
def scoreParaStep (t : HNode) (minTextLength : Nat) (m : CandMap) (en : Path × HNode) :
    CandMap :=
  let q := en.1
  let elem := en.2
  -- `findall(".//…")` yields proper descendants only, so `getparent()` is
  -- never `None`; the guard mirrors `if parent_node is None: continue`
  if q = [] then m
  else
    let parentPath := q.dropLast
    if trimLen (textContent elem) < minTextLength then m
    else
      let m1 := ensureCand t m parentPath
      let m2 := if parentPath ≠ [] then ensureCand t m1 parentPath.dropLast else m1
      let score := paraContribution elem
      let m3 := addScore m2 parentPath score
      if parentPath ≠ [] then addScore m3 parentPath.dropLast (score / 2) else m3

/-- The accumulation phase of `Document.score_paragraphs` (up to line 257,
before link-density scaling). -/
def scoreParagraphsRaw (t : HNode) (minTextLength : Nat) : CandMap :=
  (tagsPairs t ["p", "pre", "td"]).foldl (scoreParaStep t minTextLength) []

/-- `Document.score_paragraphs` (lines 227-270): accumulation followed by the
link-density scaling of every scored candidate. -/
def scoreParagraphs (t : HNode) (minTextLength : Nat) : CandMap :=
  (scoreParagraphsRaw t minTextLength).map
    (fun kv => (kv.1, kv.2 * (1 - getLinkDensity (nodeAtD t kv.1))))

/-- The guards of the paragraph loop: has a parent and is long enough. -/
def qualKeep (minTextLength : Nat) (en : Path × HNode) : Bool :=
  !(en.1 == []) && !(trimLen (textContent en.2) < minTextLength)

/-- The paragraphs that are retained by the loop's guards. -/
def qualifyingParas (t : HNode) (minTextLength : Nat) : List (Path × HNode) :=
  (tagsPairs t ["p", "pre", "td"]).filter (qualKeep minTextLength)

def parentKeyOf (en : Path × HNode) : Path := en.1.dropLast

def hasGrandparent (en : Path × HNode) : Bool := !(en.1.dropLast == [])

def gpKeyOf (en : Path × HNode) : Path := en.1.dropLast.dropLast

/-- Does `e` acquire a Candidate over the qualifying-paragraph list `L`:
is it a parent or grandparent of one of them. -/
def isScoredOver (L : List (Path × HNode)) (e : Path) : Bool :=
  L.any (fun en => parentKeyOf en == e || (hasGrandparent en && (gpKeyOf en == e)))

/-- Total contribution `e` receives as a parent over the list `L`. -/
def parentSumOver (L : List (Path × HNode)) (e : Path) : ℚ :=
  ((L.filter (fun en => parentKeyOf en == e)).map (fun en => paraContribution en.2)).sum

/-- Total contribution `e` receives as a grandparent over the list `L`. -/
def gpSumOver (L : List (Path × HNode)) (e : Path) : ℚ :=
  ((L.filter (fun en => hasGrandparent en && (gpKeyOf en == e))).map
    (fun en => paraContribution en.2 / 2)).sum

theorem alLookup_cons (kv : Path × ℚ) (rest : CandMap) (e : Path) :
    alLookup (kv :: rest) e = if kv.1 = e then some kv.2 else alLookup rest e := by
  by_cases h : kv.1 = e
  · rw [alLookup, List.find?_cons_of_pos (p := fun x => x.1 == e) rest (by simpa using h),
      if_pos h]
    rfl
  · rw [alLookup, List.find?_cons_of_neg (p := fun x => x.1 == e) rest (by simpa using h),
      if_neg h]
    rfl

theorem alLookup_append (m m' : CandMap) (p : Path) :
    alLookup (m ++ m') p = (alLookup m p).or (alLookup m' p) := by
  simp only [alLookup, List.find?_append]
  cases List.find? (fun kv => kv.1 == p) m <;> simp

theorem alLookup_ensureCand (t : HNode) (m : CandMap) (p e : Path) :
    alLookup (ensureCand t m p) e
      = if alLookup m p = none ∧ e = p then some (scoreNodeQ (nodeAtD t p))
        else alLookup m e := by
  rw [ensureCand]
  by_cases hp : (alLookup m p).isSome
  · have hne : ¬(alLookup m p = none) := by
      intro h; rw [h] at hp; simp at hp
    rw [if_pos hp, if_neg (fun h => hne h.1)]
  · have hnone : alLookup m p = none := Option.not_isSome_iff_eq_none.mp hp
    rw [if_neg hp, alLookup_append]
    by_cases he : e = p
    · subst he
      rw [hnone, if_pos ⟨rfl, rfl⟩, alLookup_cons, if_pos rfl]
      rfl
    · rw [if_neg (fun h => he h.2)]
      have hsing : alLookup [(p, scoreNodeQ (nodeAtD t p))] e = none := by
        rw [alLookup_cons, if_neg (Ne.symm he)]
        rfl
      rw [hsing]
      cases alLookup m e <;> rfl

theorem alLookup_addScore (m : CandMap) (p e : Path) (d : ℚ) :
    alLookup (addScore m p d) e
      = (alLookup m e).map (fun s => if e = p then s + d else s) := by
  induction m with
  | nil => rfl
  | cons kv rest ih =>
      rw [addScore, List.map_cons]
      have hrest : rest.map (fun kv => if kv.1 == p then (kv.1, kv.2 + d) else kv)
          = addScore rest p d := rfl
      rw [hrest]
      by_cases hk : kv.1 = p
      · rw [if_pos (beq_iff_eq.mpr hk)]
        rw [alLookup_cons, alLookup_cons]
        by_cases he : kv.1 = e
        · have hep : e = p := he ▸ hk
          simp [he, hep]
        · simp only [he, if_neg, ite_false]
          exact ih
      · rw [if_neg (by simp [hk])]
        rw [alLookup_cons, alLookup_cons]
        by_cases he : kv.1 = e
        · have hep : ¬(e = p) := fun h => hk (by rw [he, h])
          simp [he, hep]
        · simp only [he, if_neg, ite_false]
          exact ih

theorem isScoredOver_append (L : List (Path × HNode)) (en : Path × HNode) (e : Path) :
    isScoredOver (L ++ [en]) e
      = (isScoredOver L e
          || (parentKeyOf en == e || (hasGrandparent en && (gpKeyOf en == e)))) := by
  simp [isScoredOver, List.any_append]

theorem parentSumOver_append (L : List (Path × HNode)) (en : Path × HNode) (e : Path) :
    parentSumOver (L ++ [en]) e
      = parentSumOver L e
          + (if parentKeyOf en == e then paraContribution en.2 else 0) := by
  rw [parentSumOver, List.filter_append]
  by_cases h : parentKeyOf en == e
  · simp [h, parentSumOver]
  · simp only [Bool.not_eq_true] at h
    simp [h, parentSumOver]

theorem gpSumOver_append (L : List (Path × HNode)) (en : Path × HNode) (e : Path) :
    gpSumOver (L ++ [en]) e
      = gpSumOver L e
          + (if hasGrandparent en && (gpKeyOf en == e) then paraContribution en.2 / 2
             else 0) := by
  rw [gpSumOver, List.filter_append]
  by_cases h : hasGrandparent en && (gpKeyOf en == e)
  · simp [h, gpSumOver]
  · simp only [Bool.not_eq_true] at h
    simp [h, gpSumOver]

theorem parentSumOver_eq_zero {L : List (Path × HNode)} {e : Path}
    (h : isScoredOver L e = false) : parentSumOver L e = 0 := by
  rw [isScoredOver] at h
  rw [parentSumOver]
  have hnil : L.filter (fun en => parentKeyOf en == e) = [] := by
    rw [List.filter_eq_nil_iff]
    intro en hen hkeep
    have hfa := List.any_eq_false.mp h en hen
    rw [hkeep] at hfa
    simp at hfa
  rw [hnil]
  rfl

theorem gpSumOver_eq_zero {L : List (Path × HNode)} {e : Path}
    (h : isScoredOver L e = false) : gpSumOver L e = 0 := by
  rw [isScoredOver] at h
  rw [gpSumOver]
  have hnil : L.filter (fun en => hasGrandparent en && (gpKeyOf en == e)) = [] := by
    rw [List.filter_eq_nil_iff]
    intro en hen hkeep
    have hfa := List.any_eq_false.mp h en hen
    rw [hkeep] at hfa
    simp at hfa
  rw [hnil]
  rfl

theorem dropLast_ne_of_ne_nil {P : Path} (h : P ≠ []) : P.dropLast ≠ P := by
  intro hcon
  have h1 : P.dropLast.length = P.length - 1 := List.length_dropLast P
  have h2 : 0 < P.length := List.length_pos.mpr h
  rw [hcon] at h1
  omega

/-- What one qualifying iteration of the paragraph loop does to the lookup
of an arbitrary key `e`: the parent key gains the full contribution, the
grandparent key (when the grandparent exists) gains half of it, both starting
from their `score_node` base if not yet present; other keys are untouched. -/
theorem alLookup_scoreParaStep (t : HNode) (minTL : Nat) (m : CandMap)
    (en : Path × HNode) (e : Path)
    (hne : ¬(en.1 = [])) (hlen : ¬(trimLen (textContent en.2) < minTL)) :
    alLookup (scoreParaStep t minTL m en) e
      = if e = en.1.dropLast then
          some ((alLookup m e).getD (scoreNodeQ (nodeAtD t e)) + paraContribution en.2)
        else if en.1.dropLast ≠ [] ∧ e = en.1.dropLast.dropLast then
          some ((alLookup m e).getD (scoreNodeQ (nodeAtD t e)) + paraContribution en.2 / 2)
        else alLookup m e := by
  rw [scoreParaStep]
  simp only [if_neg hne, if_neg hlen]
  generalize paraContribution en.2 = s
  generalize en.1.dropLast = P
  by_cases hgp : P ≠ []
  · have hPG : P.dropLast ≠ P := dropLast_ne_of_ne_nil hgp
    have hPG' : ¬(P = P.dropLast) := fun hcon => hPG hcon.symm
    rw [if_pos hgp, if_pos hgp, alLookup_addScore, alLookup_addScore]
    have hinner : alLookup (ensureCand t m P) P.dropLast = alLookup m P.dropLast := by
      rw [alLookup_ensureCand,
        if_neg (show ¬(alLookup m P = none ∧ P.dropLast = P) from fun hcon => hPG hcon.2)]
    have hX : alLookup (ensureCand t (ensureCand t m P) P.dropLast) e
        = if alLookup m P.dropLast = none ∧ e = P.dropLast
          then some (scoreNodeQ (nodeAtD t P.dropLast))
          else if alLookup m P = none ∧ e = P then some (scoreNodeQ (nodeAtD t P))
          else alLookup m e := by
      rw [alLookup_ensureCand, hinner, alLookup_ensureCand]
    rw [hX]
    by_cases heP : e = P
    · rw [heP]
      rw [if_neg (show ¬(alLookup m P.dropLast = none ∧ P = P.dropLast) from
        fun hcon => hPG' hcon.2)]
      cases ho : alLookup m P with
      | none => simp [hPG']
      | some v => simp [hPG']
    · by_cases heG : e = P.dropLast
      · rw [heG]
        rw [if_neg (show ¬(alLookup m P = none ∧ P.dropLast = P) from
          fun hcon => hPG hcon.2)]
        cases ho : alLookup m P.dropLast with
        | none => simp [hPG, hgp]
        | some v => simp [hPG, hgp]
      · rw [if_neg (show ¬(alLookup m P.dropLast = none ∧ e = P.dropLast) from
          fun hcon => heG hcon.2)]
        rw [if_neg (show ¬(alLookup m P = none ∧ e = P) from fun hcon => heP hcon.2)]
        rw [if_neg heP, if_neg (fun hcon => heG hcon.2)]
        cases alLookup m e with
        | none => rfl
        | some v => simp [heP, heG]
  · rw [if_neg hgp, if_neg hgp, alLookup_addScore]
    have hX : alLookup (ensureCand t m P) e
        = if alLookup m P = none ∧ e = P then some (scoreNodeQ (nodeAtD t P))
          else alLookup m e := alLookup_ensureCand t m P e
    rw [hX]
    by_cases heP : e = P
    · rw [heP]
      cases ho : alLookup m P with
      | none => simp [hgp]
      | some v => simp [hgp]
    · rw [if_neg (show ¬(alLookup m P = none ∧ e = P) from fun hcon => heP hcon.2)]
      rw [if_neg heP, if_neg (fun hcon => hgp hcon.1)]
      cases alLookup m e with
      | none => rfl
      | some v => simp [heP]

/-- The accumulated candidate map after any prefix of the paragraph loop:
an element is present iff it is the parent or grandparent of a qualifying
paragraph seen so far, and its raw score is its `score_node` base plus the
full contribution of each qualifying paragraph it parents plus half the
contribution of each qualifying paragraph it grandparents. -/
theorem foldl_scorePara_char (t : HNode) (minTL : Nat) (L : List (Path × HNode)) (e : Path) :
    alLookup (L.foldl (scoreParaStep t minTL) []) e
      = if isScoredOver (L.filter (qualKeep minTL)) e
        then some (scoreNodeQ (nodeAtD t e)
          + parentSumOver (L.filter (qualKeep minTL)) e
          + gpSumOver (L.filter (qualKeep minTL)) e)
        else none := by
  induction L using List.reverseRecOn with
  | nil => simp [isScoredOver, alLookup, List.filter]
  | append_singleton l en ih =>
      rw [List.foldl_append, List.filter_append, List.foldl_cons, List.foldl_nil]
      by_cases hq : qualKeep minTL en
      · -- the paragraph passes both guards
        have hfilter : List.filter (qualKeep minTL) [en] = [en] := by
          simp [List.filter, hq]
        rw [hfilter]
        have hne : ¬(en.1 = []) := by
          intro hcon
          rw [qualKeep, hcon] at hq
          simp at hq
        have hlen : ¬(trimLen (textContent en.2) < minTL) := by
          intro hcon
          rw [qualKeep] at hq
          simp [hcon] at hq
        rw [alLookup_scoreParaStep t minTL _ en e hne hlen, ih]
        rw [isScoredOver_append, parentSumOver_append, gpSumOver_append]
        by_cases heP : e = en.1.dropLast
        · have hPbeq : (parentKeyOf en == e) = true := beq_iff_eq.mpr heP.symm
          have heG : ¬(hasGrandparent en ∧ e = en.1.dropLast.dropLast) := by
            rintro ⟨hg, hcon⟩
            rw [hasGrandparent, Bool.not_eq_true'] at hg
            have hgp : en.1.dropLast ≠ [] := by simpa using hg
            exact dropLast_ne_of_ne_nil hgp (heP.symm.trans hcon).symm
          have hGbeq : (hasGrandparent en && (gpKeyOf en == e)) = false := by
            rw [Bool.and_eq_false_iff]
            by_cases hg : hasGrandparent en = true
            · right
              rw [beq_eq_false_iff_ne]
              exact fun hcon => heG ⟨hg, hcon.symm⟩
            · left
              simpa using hg
          rw [if_pos heP, hPbeq, hGbeq]
          by_cases hsc : isScoredOver (l.filter (qualKeep minTL)) e
          · simp only [hsc, Bool.true_or, Bool.or_true, if_true, ite_true,
              Option.getD_some, Bool.false_eq_true, if_false, add_zero]
            congr 1
            ring
          · simp only [Bool.not_eq_true] at hsc
            simp only [hsc, parentSumOver_eq_zero hsc, gpSumOver_eq_zero hsc,
              Bool.false_or, Bool.true_or, if_true, ite_true, ite_false,
              Option.getD_none, Bool.false_eq_true, if_false, add_zero, zero_add]
        · by_cases heG : en.1.dropLast ≠ [] ∧ e = en.1.dropLast.dropLast
          · have hPbeq : (parentKeyOf en == e) = false :=
              beq_eq_false_iff_ne.mpr (fun hcon => heP hcon.symm)
            have hGbeq : (hasGrandparent en && (gpKeyOf en == e)) = true := by
              rw [Bool.and_eq_true]
              constructor
              · simp [hasGrandparent, heG.1]
              · exact beq_iff_eq.mpr heG.2.symm
            rw [if_neg heP, if_pos heG, hPbeq, hGbeq]
            by_cases hsc : isScoredOver (l.filter (qualKeep minTL)) e
            · simp only [hsc, Bool.true_or, Bool.or_true, if_true, ite_true,
                Option.getD_some, Bool.false_eq_true, if_false, add_zero]
              congr 1
              ring
            · simp only [Bool.not_eq_true] at hsc
              simp only [hsc, parentSumOver_eq_zero hsc, gpSumOver_eq_zero hsc,
                Bool.false_or, Bool.or_true, if_true, ite_true, ite_false,
                Option.getD_none, Bool.false_eq_true, if_false, add_zero, zero_add]
          · have hPbeq : (parentKeyOf en == e) = false :=
              beq_eq_false_iff_ne.mpr (fun hcon => heP hcon.symm)
            have hGbeq : (hasGrandparent en && (gpKeyOf en == e)) = false := by
              rw [Bool.and_eq_false_iff]
              by_cases hg : hasGrandparent en = true
              · right
                rw [beq_eq_false_iff_ne]
                intro hcon
                apply heG
                refine ⟨?_, hcon.symm⟩
                rw [hasGrandparent, Bool.not_eq_true'] at hg
                simpa using hg
              · left
                simpa using hg
            rw [if_neg heP, if_neg heG, hPbeq, hGbeq]
            simp
      · -- the paragraph fails a guard and contributes nothing
        have hfilter : List.filter (qualKeep minTL) [en] = [] := by
          simp only [List.filter, hq]
        rw [hfilter, List.append_nil]
        have hstep : scoreParaStep t minTL (l.foldl (scoreParaStep t minTL) []) en
            = l.foldl (scoreParaStep t minTL) [] := by
          have hq2 : en.1 = [] ∨ trimLen (textContent en.2) < minTL := by
            by_contra hcon
            push_neg at hcon
            exact hq (by simp [qualKeep, hcon.1, hcon.2])
          rw [scoreParaStep]
          rcases hq2 with h1 | h1
          · rw [if_pos h1]
          · by_cases h0 : en.1 = []
            · rw [if_pos h0]
            · simp only [if_neg h0, if_pos h1]
        rw [hstep, ih]

/-- C1: in `score_paragraphs`, every `p`/`pre`/`td` element with a parent whose
trimmed text length is at least `min_text_length` contributes
`1 + len(text.split(",")) + min(len/100, 3)` in full to its parent's candidate
score and exactly half of it to its grandparent's candidate score when the
grandparent exists (nothing otherwise); candidates are created via `score_node`
on first sight, and shorter paragraphs contribute nothing: the raw candidate
map is exactly `score_node` base plus these sums, and elements that parent or
grandparent no qualifying paragraph have no candidate at all. -/
theorem C1_score_paragraphs_accumulation (t : HNode) (minTextLength : Nat) (e : Path) :
    alLookup (scoreParagraphsRaw t minTextLength) e
      = if isScoredOver (qualifyingParas t minTextLength) e
        then some (scoreNodeQ (nodeAtD t e)
          + parentSumOver (qualifyingParas t minTextLength) e
          + gpSumOver (qualifyingParas t minTextLength) e)
        else none :=
  foldl_scorePara_char t minTextLength (tagsPairs t ["p", "pre", "td"]) e

/-! ### C3: the sanitizer's traversal order -/

/-- The tag names of the sanitizer's conditional-cleaning loop
(lines 365-367). -/
def sanitizeTagNames : List String :=
  ["table", "ul", "div", "aside", "header", "footer", "section"]

/-- The element paths visited by
`reverse_tags(node, "table", "ul", "div", "aside", "header", "footer", "section")`. -/
def sanitizeVisitOrder (t : HNode) : List Path :=
  (reverseTags t sanitizeTagNames).map Prod.fst

theorem descendants_eq (n : HNode) : descendants n = descList 0 n.children := by
  cases n with
  | mk t a tx tl ch => rw [descendants]; rfl

theorem descList_cons_map_fst (i : Nat) (c : HNode) (cs : List HNode) :
    (descList i (c :: cs)).map Prod.fst
      = [i] :: (((descendants c).map Prod.fst).map (fun p => i :: p)
          ++ (descList (i + 1) cs).map Prod.fst) := by
  rw [descList]
  simp [List.map_map]

theorem descList_paths_ne_nil (ch : List HNode) :
    ∀ (i : Nat) (p : Path), p ∈ (descList i ch).map Prod.fst → p ≠ [] := by
  induction ch with
  | nil => intro i p hp; rw [descList] at hp; cases hp
  | cons c cs ih =>
      intro i p hp
      rw [descList_cons_map_fst] at hp
      rcases List.mem_cons.mp hp with hp | hp
      · rw [hp]; simp
      rcases List.mem_append.mp hp with hp | hp
      · obtain ⟨q, -, rfl⟩ := List.mem_map.mp hp
        simp
      · exact ih (i + 1) p hp

theorem descendants_paths_ne_nil (n : HNode) (p : Path)
    (hp : p ∈ (descendants n).map Prod.fst) : p ≠ [] := by
  rw [descendants_eq] at hp
  exact descList_paths_ne_nil n.children 0 p hp

theorem descList_paths_head (ch : List HNode) :
    ∀ (i : Nat) (p : Path), p ∈ (descList i ch).map Prod.fst
      → ∃ j p', i ≤ j ∧ p = j :: p' := by
  induction ch with
  | nil => intro i p hp; rw [descList] at hp; cases hp
  | cons c cs ih =>
      intro i p hp
      rw [descList_cons_map_fst] at hp
      rcases List.mem_cons.mp hp with hp | hp
      · exact ⟨i, [], le_refl i, hp⟩
      rcases List.mem_append.mp hp with hp | hp
      · obtain ⟨q, -, rfl⟩ := List.mem_map.mp hp
        exact ⟨i, q, le_refl i, rfl⟩
      · obtain ⟨j, p', hj, hp'⟩ := ih (i + 1) p hp
        exact ⟨j, p', by omega, hp'⟩

/-- Document (pre-)order lists ancestors before descendants: a later path is
never a prefix of an earlier one. -/
theorem descList_pairwise (ch : List HNode)
    (ih : ∀ c ∈ ch, ((descendants c).map Prod.fst).Pairwise (fun a b => ¬(b <+: a))) :
    ∀ i : Nat, ((descList i ch).map Prod.fst).Pairwise (fun a b => ¬(b <+: a)) := by
  induction ch with
  | nil => intro i; rw [descList]; exact List.Pairwise.nil
  | cons c cs ihl =>
      intro i
      rw [descList_cons_map_fst, List.pairwise_cons]
      constructor
      · -- nothing later is a prefix of the head [i]
        intro p hp
        rcases List.mem_append.mp hp with hp | hp
        · obtain ⟨q, hq, rfl⟩ := List.mem_map.mp hp
          intro hcon
          rcases List.cons_prefix_cons.mp hcon with ⟨-, h2⟩
          obtain ⟨k, hk⟩ := h2
          exact descendants_paths_ne_nil c q hq (List.append_eq_nil.mp hk).1
        · obtain ⟨j, p', hj, hp'⟩ := descList_paths_head cs (i + 1) p hp
          subst hp'
          intro hcon
          rcases List.cons_prefix_cons.mp hcon with ⟨h1, -⟩
          omega
      · rw [List.pairwise_append]
        refine ⟨?_, ihl (fun c' hc' => ih c' (List.mem_cons_of_mem _ hc')) (i + 1), ?_⟩
        · -- within the first child's block
          refine List.Pairwise.map _ ?_ (ih c (List.mem_cons_self c cs))
          intro a b hab hcon
          exact hab (List.cons_prefix_cons.mp hcon).2
        · -- across blocks: different head indices
          intro a ha b hb
          obtain ⟨q, -, rfl⟩ := List.mem_map.mp ha
          obtain ⟨j, p', hj, hp'⟩ := descList_paths_head cs (i + 1) b hb
          subst hp'
          intro hcon
          rcases List.cons_prefix_cons.mp hcon with ⟨h1, -⟩
          omega

theorem dpaths_pairwise (t : HNode) :
    ((descendants t).map Prod.fst).Pairwise (fun a b => ¬(b <+: a)) := by
  induction t using HNode.inductionOn with
  | _ n ih =>
      rw [descendants_eq]
      exact descList_pairwise n.children ih 0

theorem findallTag_pairwise (t : HNode) (tg : String) :
    ((findallTag t tg).map Prod.fst).Pairwise (fun a b => ¬(b <+: a)) := by
  have hsub : List.Sublist ((findallTag t tg).map Prod.fst)
      ((descendants t).map Prod.fst) := (List.filter_sublist _).map Prod.fst
  exact (dpaths_pairwise t).sublist hsub

/-- C3, corrected: the sanitizer's loop visits each of the seven tag names in
turn (`table` first, `section` last), the elements of each single tag name in
reverse document order; within one tag name every element is visited before
any of its ancestors of the same tag, but across different tag names an
ancestor (e.g. a `table`) is visited before a nested element of a later tag
name (e.g. a `div` inside it). -/
theorem C3_sanitize_visit_order (t : HNode) :
    sanitizeVisitOrder t
        = sanitizeTagNames.flatMap (fun tg => ((findallTag t tg).map Prod.fst).reverse)
      ∧ ∀ tg : String,
          (((findallTag t tg).map Prod.fst).reverse).Pairwise (fun a b => ¬(a <+: b)) := by
  constructor
  · rw [sanitizeVisitOrder, reverseTags, List.map_flatMap]
    simp [List.map_reverse]
  · intro tg
    rw [List.pairwise_reverse]
    exact findallTag_pairwise t tg

/-- C3, counterexample to the claim as stated: with a `div` nested inside a
`table`, the visit order is `table` first (all tags of the earlier name come
first), so this ancestor is evaluated before its nested `div`. -/
theorem C3_counterexample :
    sanitizeVisitOrder
        (HNode.mk "body" [] [] [] [HNode.mk "table" [] [] [] [HNode.mk "div" [] [] [] []]])
      = [[0], [0, 0]]
    ∧ ([0] : Path) <+: [0, 0] ∧ ([0] : Path) ≠ [0, 0] := by
  refine ⟨by decide, ⟨[0], rfl⟩, by decide⟩

/-! ### C5: the article assembler `get_article` (lines 170-209) -/

/-- `re.search(r"\.( |$)", text)`: somewhere in the text, a period followed by
a space or by a position where `$` matches.  Python's `$` (without
`re.MULTILINE`) matches at the end of the string and also just before a
newline that is the last character of the string, so a text ending in ".\n"
matches too (but not ".\n\n" or ".\r\n": only a single final newline
counts). -/
def hasSentencePeriod : List Char → Bool
  | [] => false
  | c :: rest =>
      (c = '.' && (rest.isEmpty || rest.head? == some ' ' || rest == ['\n']))
        || hasSentencePeriod rest

/-- The claim's reading of the condition: the text ends with a
sentence-terminating period followed by a space or by the end of the string
(i.e. ends with ". " or with "."). -/
def endsSentencePeriod (l : List Char) : Bool :=
  l.reverse.head? == some '.' || l.reverse.take 2 == [' ', '.']

/-- The trailing-newline case of the `$` anchor: a text ending ".\n" matches
`\.( |$)` although it does not end with a period, while ".\n\n" does not
match (only a single final newline counts). -/
theorem hasSentencePeriod_newline_cases :
    hasSentencePeriod "Ok.\n".data = true
      ∧ hasSentencePeriod "Ok.\n\n".data = false
      ∧ endsSentencePeriod "Ok.\n".data = false := by
  decide

/-- The `append` flag computed for one sibling (lines 183-203): the chain of
`if`/`elif` conditions, in source order. -/
def appendFlag (cands : CandMap) (bestPath : Path) (threshold : ℚ)
    (sp : Path) (sib : HNode) : Bool :=
  if sp = bestPath then true
  else if (match alLookup cands sp with
           | some sc => decide (threshold ≤ sc)
           | none => false) then true
  else if sib.tag = "p" then
    let link_density := getLinkDensity sib
    let node_content := sib.text
    let node_length := node_content.length
    if 80 < node_length ∧ link_density < 1/4 then true
    else if node_length ≤ 80 ∧ link_density = 0 ∧ hasSentencePeriod node_content then true
    else false
  else false

/-- The sibling paths scanned by `get_article`: the children of the best
candidate's parent, or the best candidate alone when it has no parent. -/
def articleSiblings (t : HNode) (bestPath : Path) : List Path :=
  if bestPath ≠ [] then
    (List.range (nodeAtD t bestPath.dropLast).children.length).map
      (fun i => bestPath.dropLast ++ [i])
  else [bestPath]

/-- `Document.get_article` (lines 170-209): walks the siblings in order and
appends those whose `append` flag is set; the result is the list of paths
moved into the fresh output `div`, in original order.  The floating-point
literal `0.2` of `sibling_score_threshold` is modelled as `1/5`. -/
def getArticle (t : HNode) (cands : CandMap) (bestPath : Path) (bestScore : ℚ) :
    List Path :=
  let threshold := max 10 (bestScore * (1/5))
  (articleSiblings t bestPath).foldl
    (fun output sp =>
      if appendFlag cands bestPath threshold sp (nodeAtD t sp) then output ++ [sp]
      else output) []

/-- The inclusion condition of the (corrected) claim, as a predicate:
best candidate itself, or candidate score at least the threshold, or a `p`
whose own text is long with low link density, or short with zero link density
and, somewhere in it, a period followed by a space or by a position where the
`$` anchor matches (end of string, or just before a single final newline). -/
def siblingIncluded (t : HNode) (cands : CandMap) (bestPath : Path) (threshold : ℚ)
    (sp : Path) : Prop :=
  sp = bestPath
    ∨ (∃ sc, alLookup cands sp = some sc ∧ threshold ≤ sc)
    ∨ ((nodeAtD t sp).tag = "p"
        ∧ ((80 < (nodeAtD t sp).text.length ∧ getLinkDensity (nodeAtD t sp) < 1/4)
          ∨ ((nodeAtD t sp).text.length ≤ 80 ∧ getLinkDensity (nodeAtD t sp) = 0
              ∧ hasSentencePeriod (nodeAtD t sp).text = true)))

theorem foldl_append_filter (f : Path → Bool) (l : List Path) (acc : List Path) :
    l.foldl (fun output sp => if f sp then output ++ [sp] else output) acc
      = acc ++ l.filter f := by
  induction l generalizing acc with
  | nil => simp
  | cons sp rest ih =>
      rw [List.foldl_cons, List.filter_cons]
      by_cases h : f sp
      · rw [if_pos h, if_pos h, ih]
        simp
      · rw [if_neg h, ih]
        simp [h]

theorem appendFlag_iff (t : HNode) (cands : CandMap) (bestPath : Path)
    (threshold : ℚ) (sp : Path) :
    appendFlag cands bestPath threshold sp (nodeAtD t sp) = true
      ↔ siblingIncluded t cands bestPath threshold sp := by
  rw [appendFlag, siblingIncluded]
  by_cases h1 : sp = bestPath
  · simp [h1]
  · rw [if_neg h1]
    by_cases h2 : ∃ sc, alLookup cands sp = some sc ∧ threshold ≤ sc
    · obtain ⟨sc, hsc, hth⟩ := h2
      rw [hsc]
      have hred : (match some sc with
            | some sc => decide (threshold ≤ sc)
            | none => false) = decide (threshold ≤ sc) := rfl
      rw [hred, decide_eq_true hth, if_pos rfl]
      simp only [true_iff]
      exact Or.inr (Or.inl ⟨sc, rfl, hth⟩)
    · have h2' : (match alLookup cands sp with
          | some sc => decide (threshold ≤ sc)
          | none => false) = false := by
        cases hsc : alLookup cands sp with
        | none => rfl
        | some sc =>
            by_cases hth : threshold ≤ sc
            · exact absurd ⟨sc, hsc, hth⟩ h2
            · simp [hth]
      rw [h2', if_neg (by simp)]
      by_cases h3 : (nodeAtD t sp).tag = "p"
      · rw [if_pos h3]
        by_cases h4 : 80 < (nodeAtD t sp).text.length ∧ getLinkDensity (nodeAtD t sp) < 1/4
        · rw [if_pos h4]
          simp only [true_iff]
          exact Or.inr (Or.inr ⟨h3, Or.inl h4⟩)
        · rw [if_neg h4]
          by_cases h5 : (nodeAtD t sp).text.length ≤ 80
              ∧ getLinkDensity (nodeAtD t sp) = 0
              ∧ hasSentencePeriod (nodeAtD t sp).text = true
          · rw [if_pos h5]
            simp only [true_iff]
            exact Or.inr (Or.inr ⟨h3, Or.inr h5⟩)
          · rw [if_neg h5]
            simp only [Bool.false_eq_true, false_iff]
            rintro (hcon | hcon | ⟨-, hc | hc⟩)
            · exact h1 hcon
            · exact h2 hcon
            · exact h4 hc
            · exact h5 hc
      · rw [if_neg h3]
        simp only [Bool.false_eq_true, false_iff]
        rintro (hcon | hcon | hcon)
        · exact h1 hcon
        · exact h2 hcon
        · exact h3 hcon.1

/-- C5, corrected: a sibling of the best candidate's parent is moved into the
output div iff it is the best candidate itself, or it has a Candidate scoring
at least `max(10, best.score * 0.2)`, or it is a `p` element whose own direct
text either is longer than 80 with link density below 0.25, or is at most 80
long with zero link density and contains (anywhere, not only at the end) a
period followed by a space, by the end of the string, or by a newline that
ends the string (Python's `$` also matches just before a single trailing
newline); included siblings appear in original order. -/
theorem C5_get_article_inclusion (t : HNode) (cands : CandMap) (bestPath : Path)
    (bestScore : ℚ) :
    getArticle t cands bestPath bestScore
        = (articleSiblings t bestPath).filter
            (fun sp => appendFlag cands bestPath (max 10 (bestScore * (1/5))) sp (nodeAtD t sp))
      ∧ ∀ sp : Path,
          (appendFlag cands bestPath (max 10 (bestScore * (1/5))) sp (nodeAtD t sp)) = true
            ↔ siblingIncluded t cands bestPath (max 10 (bestScore * (1/5))) sp := by
  constructor
  · rw [getArticle]
    exact foldl_append_filter _ _ []
  · intro sp
    exact appendFlag_iff t cands bestPath _ sp

/-- A best-candidate `div` plus a short `p` sibling whose text contains a
period followed by a space in the middle but does not end with one. -/
def cexArticle : HNode :=
  HNode.mk "div" [] [] []
    [HNode.mk "div" [] "first".data [] [],
     HNode.mk "p" [] "Hi. there".data [] []]

/-- C5, counterexample to the claim as stated: the sibling `p` "Hi. there"
(short, zero link density, no Candidate, not the best candidate) is appended
by `get_article` although its direct text does not end with a
sentence-terminating period followed by a space or end-of-string — the code
checks `re.search(r"\.( |$)")`, which also matches in the middle. -/
theorem C5_counterexample :
    getArticle cexArticle [([0], 20)] [0] 20 = [[0], [1]]
      ∧ ([1] : Path) ≠ [0]
      ∧ alLookup [([0], (20 : ℚ))] [1] = none
      ∧ endsSentencePeriod (nodeAtD cexArticle [1]).text = false := by
  have hdens : getLinkDensity (nodeAtD cexArticle [1]) = 0 := by
    have hsum : anchorSum (nodeAtD cexArticle [1]) = 0 := by decide
    rw [getLinkDensity_eq, hsum]
    simp
  have hflag0 : appendFlag [([0], (20 : ℚ))] [0] (max 10 (20 * (1/5))) [0]
      (nodeAtD cexArticle [0]) = true := by
    rw [appendFlag, if_pos rfl]
  have hflag1 : appendFlag [([0], (20 : ℚ))] [0] (max 10 (20 * (1/5))) [1]
      (nodeAtD cexArticle [1]) = true := by
    rw [appendFlag, if_neg (by decide)]
    have hl : alLookup [([0], (20 : ℚ))] [1] = none := rfl
    rw [hl]
    rw [if_neg (by simp)]
    rw [if_pos (show (nodeAtD cexArticle [1]).tag = "p" from rfl)]
    rw [if_neg (fun hc => absurd hc.1 (by decide))]
    rw [if_pos ⟨by decide, hdens, by decide⟩]
  refine ⟨?_, by decide, rfl, by decide⟩
  rw [getArticle]
  rw [show articleSiblings cexArticle [0] = [[0], [1]] from by decide]
  rw [List.foldl_cons, if_pos hflag0, List.foldl_cons, if_pos hflag1, List.foldl_nil]
  rfl

/-! ### C4: the sanitizer's detailed heuristic filter (lines 370-473) -/

inductive SanReason : Type
  | tooManyImages
  | moreLiThanP
  | tooManyInputs
  | shortNoImage
  | shortManyImages
  | linkyLowWeight
  | linkyHighWeight
  | badEmbeds
  | noContent
  deriving DecidableEq

inductive SanAction : Type
  /-- `weight + score < 0` (line 376) -/
  | removeNegative
  /-- removed by the detailed filter, with its reason -/
  | remove (r : SanReason)
  /-- ten or more commas: exempt from the detailed filter -/
  | keepCommaRich
  /-- passed every rule of the detailed filter -/
  | keep
  /-- "no content" cancelled by the sibling-sum override (the element's
  `table`/`ul`/`div`/`section` descendants join the allow-set) -/
  | keepOverride
  deriving DecidableEq

/-- `len(elem.findall(".//tag"))` as a Python int. -/
def countDesc (n : HNode) (tg : String) : ℤ := ((findallTag n tg).length : ℤ)

/-- `len(elem.findall('.//input[@type="hidden"]'))`. -/
def hiddenInputCount (n : HNode) : ℤ :=
  (((findallTag n "input").filter
      (fun pn => pn.2.attr "type" == some "hidden".data)).length : ℤ)

/-- The sibling-collection loops of the "no content" override (lines 445-459):
append the trimmed text length of each non-empty sibling until the collected
list reaches `limit`. -/
def collectUntil (limit : Nat) : List HNode → List Nat → List Nat
  | [], acc => acc
  | s :: rest, acc =>
      if textLen s ≠ 0 then
        if (acc ++ [textLen s]).length ≥ limit then acc ++ [textLen s]
        else collectUntil limit rest (acc ++ [textLen s])
      else collectUntil limit rest acc

/-- The decision the sanitizer takes for one visited element of the
conditional-cleaning loop (lines 370-473).  `score` stands for
`candidates[elem].score if elem in candidates else 0`; `folSibs` are the
element's following siblings in document order and `precSibs` its preceding
siblings nearest-first (`itersiblings(preceding=True)` order).  Floating
literals `1.3`, `0.2`, `0.5` are modelled as `13/10`, `1/5`, `1/2`. -/
def sanitizeDecision (minTextLength : Nat) (score : ℚ) (elem : HNode)
    (precSibs folSibs : List HNode) : SanAction :=
  let weight := classWeight elem
  if weight + score < 0 then .removeNegative
  else if (textContent elem).count ',' < 10 then
    let pCount := countDesc elem "p"
    let imgCount := countDesc elem "img"
    let liCount := countDesc elem "li" - 100
    let inputCount := countDesc elem "input" - hiddenInputCount elem
    let embedCount := countDesc elem "embed"
    let contentLength := textLen elem
    let linkDensity := getLinkDensity elem
    if pCount ≠ 0 ∧ 1 + (pCount : ℚ) * (13/10) < (imgCount : ℚ) then
      .remove .tooManyImages
    else if pCount < liCount ∧ elem.tag ≠ "ol" ∧ elem.tag ≠ "ul" then
      .remove .moreLiThanP
    else if (pCount : ℚ) / 3 < (inputCount : ℚ) then
      .remove .tooManyInputs
    else if contentLength < minTextLength ∧ imgCount = 0 then
      .remove .shortNoImage
    else if contentLength < minTextLength ∧ 2 < imgCount then
      .remove .shortManyImages
    else if weight < 25 ∧ 1/5 < linkDensity then
      .remove .linkyLowWeight
    else if 25 ≤ weight ∧ 1/2 < linkDensity then
      .remove .linkyHighWeight
    else if (embedCount = 1 ∧ contentLength < 75) ∨ 1 < embedCount then
      .remove .badEmbeds
    else if contentLength = 0 then
      let sibs1 := collectUntil 1 folSibs []
      let sibs := collectUntil (sibs1.length + 1) precSibs sibs1
      if sibs ≠ [] ∧ 1000 < sibs.sum then .keepOverride else .remove .noContent
    else .keep
  else .keepCommaRich

/-- C4, corrected: under the filter's guard (`weight + score ≥ 0`, fewer than
10 commas), an element with `img_count > 1 + p_count*1.3` is excised with
reason "too many images" as the first rule evaluated — but only when
`p_count ≥ 1`: the code's condition is `counts["p"] and counts["img"] > …`,
so with `p_count = 0` the rule never fires. -/
theorem C4_too_many_images (minTextLength : Nat) (score : ℚ) (elem : HNode)
    (precSibs folSibs : List HNode)
    (hguard : 0 ≤ classWeight elem + score)
    (hcommas : (textContent elem).count ',' < 10)
    (hp : countDesc elem "p" ≠ 0)
    (himg : 1 + (countDesc elem "p" : ℚ) * (13/10) < (countDesc elem "img" : ℚ)) :
    sanitizeDecision minTextLength score elem precSibs folSibs
      = .remove .tooManyImages := by
  rw [sanitizeDecision, if_neg (not_lt.mpr hguard), if_pos hcommas, if_pos ⟨hp, himg⟩]

/-- A `div` with three images, some text, and no `p` at all. -/
def cexImgs : HNode :=
  HNode.mk "div" [] "thirty chars of plain text here".data []
    [HNode.mk "img" [] [] [] [], HNode.mk "img" [] [] [] [],
     HNode.mk "img" [] [] [] []]

/-- Witness for C4: two paragraphs and four images trip the first rule. -/
def witImgs : HNode :=
  HNode.mk "div" [] [] []
    [HNode.mk "p" [] "some text".data [] [],
     HNode.mk "img" [] [] [] [], HNode.mk "img" [] [] [] [],
     HNode.mk "img" [] [] [] [], HNode.mk "img" [] [] [] []]

theorem C4_too_many_images_witness :
    (0 ≤ classWeight witImgs + 0
      ∧ (textContent witImgs).count ',' < 10
      ∧ countDesc witImgs "p" ≠ 0
      ∧ 1 + (countDesc witImgs "p" : ℚ) * (13/10) < (countDesc witImgs "img" : ℚ))
    ∧ sanitizeDecision 25 0 witImgs [] [] = .remove .tooManyImages := by
  have hw : classWeight witImgs = 0 := by
    simp [classWeight, HNode.attr, witImgs, HNode.attrs]
  have hp : countDesc witImgs "p" = 1 := by decide
  have himg : countDesc witImgs "img" = 4 := by decide
  have h1 : 0 ≤ classWeight witImgs + 0 := by rw [hw]; norm_num
  have h2 : (textContent witImgs).count ',' < 10 := by decide
  have h3 : countDesc witImgs "p" ≠ 0 := by rw [hp]; norm_num
  have h4 : 1 + (countDesc witImgs "p" : ℚ) * (13/10) < (countDesc witImgs "img" : ℚ) := by
    rw [hp, himg]
    norm_num
  exact ⟨⟨h1, h2, h3, h4⟩, C4_too_many_images 25 0 witImgs [] [] h1 h2 h3 h4⟩

/-- C4, counterexample to the claim as stated: with `p_count = 0` and three
images (`3 > 1 + 0*1.3`), the guard `counts["p"] and …` is falsy, the first
rule is skipped, and the element is kept. -/
theorem C4_counterexample :
    countDesc cexImgs "p" = 0
      ∧ countDesc cexImgs "img" = 3
      ∧ 1 + (countDesc cexImgs "p" : ℚ) * (13/10) < (countDesc cexImgs "img" : ℚ)
      ∧ 0 ≤ classWeight cexImgs + 0
      ∧ (textContent cexImgs).count ',' < 10
      ∧ sanitizeDecision 25 0 cexImgs [] [] = .keep := by
  have hw : classWeight cexImgs = 0 := by
    simp [classWeight, HNode.attr, cexImgs, HNode.attrs]
  have hp : countDesc cexImgs "p" = 0 := by decide
  have himg : countDesc cexImgs "img" = 3 := by decide
  have hdens : getLinkDensity cexImgs = 0 := by
    have hsum : anchorSum cexImgs = 0 := by decide
    rw [getLinkDensity_eq, hsum]
    simp
  have hlen : textLen cexImgs = 31 := by decide
  refine ⟨hp, himg, ?_, ?_, by decide, ?_⟩
  · rw [hp, himg]; norm_num
  · rw [hw]; norm_num
  · rw [sanitizeDecision]
    rw [if_neg (by rw [hw]; norm_num)]
    rw [if_pos (by decide)]
    rw [if_neg (fun hc => hc.1 hp)]
    rw [if_neg (by
      rintro ⟨hc, -⟩
      rw [hp] at hc
      have : countDesc cexImgs "li" = 0 := by decide
      rw [this] at hc
      norm_num at hc)]
    rw [if_neg (by
      intro hc
      rw [hp] at hc
      have h5 : countDesc cexImgs "input" = 0 := by decide
      have h6 : hiddenInputCount cexImgs = 0 := by decide
      rw [h5, h6] at hc
      norm_num at hc)]
    rw [if_neg (fun hc => absurd (hlen ▸ hc.1) (by norm_num))]
    rw [if_neg (fun hc => absurd (hlen ▸ hc.1) (by norm_num))]
    rw [if_neg (by
      rintro ⟨-, hc⟩
      rw [hdens] at hc
      norm_num at hc)]
    rw [if_neg (by
      rintro ⟨-, hc⟩
      rw [hdens] at hc
      norm_num at hc)]
    rw [if_neg (by
      have h7 : countDesc cexImgs "embed" = 0 := by decide
      rintro (⟨hc, -⟩ | hc) <;> rw [h7] at hc <;> norm_num at hc)]
    rw [if_neg (by rw [hlen]; norm_num)]

/-! ### C8: `transform_misused_divs_into_paragraphs` (lines 307-337) -/

def divToPTokens : List String :=
  ["a", "blockquote", "dl", "div", "img", "ol", "p", "pre", "table", "ul"]

/-- The pass-1 condition
`divToPElementsRe.search("".join(_tostring(e) for e in list(elem)))`:
the serialization of the children's subtrees contains an opening tag `<x…`
beginning with one of the ten names (so e.g. `<article` also matches, via the
alternative `a`).  On the tree this holds exactly of the elements one of whose
proper descendants has a tag that starts, case-insensitively, with one of the
ten names. -/
def hasBlockDescendant (n : HNode) : Bool :=
  (nodesOf n).any (fun m => divToPTokens.any (fun tok => ciBegins tok.data m.tag.data))

-- Pass 1 (lines 308-319): retag to `p` every proper-descendant `div` whose
-- serialized children show no block element.  All conditions are evaluated as
-- on the input tree: the snapshot list is taken before mutation and document
-- order means every element is tested before any of its descendants is
-- retagged.
mutual

def pass1Go : Bool → HNode → HNode
  | isRoot, .mk tg a tx tl ch =>
      let retag := ¬isRoot ∧ tg = "div" ∧ ¬(hasBlockDescendant (.mk tg a tx tl ch))
      .mk (if retag then "p" else tg) a tx tl (pass1List ch)

def pass1List : List HNode → List HNode
  | [] => []
  | c :: cs => pass1Go false c :: pass1List cs

end

/-- `fragment_fromstring("<p/>")` with text set. -/
def mkP (txt : List Char) : HNode := HNode.mk "p" [] txt [] []

/-- The right-to-left child loop of pass 2 (lines 330-337): wrap each
non-blank tail into a fresh `p` inserted after its element, drop `br`
children (`drop_tree` re-attaches their remaining tail to the preceding
sibling's tail, or to the parent's text when leftmost — the returned
`List Char` is that pending tail). -/
def pass2Fold : List HNode → List HNode × List Char
  | [] => ([], [])
  | c :: cs =>
      let r := pass2Fold cs
      let t := c.tail ++ r.2
      let wrapped := if trim t ≠ [] then (([] : List Char), [mkP t])
        else (t, ([] : List HNode))
      if c.tag = "br" then (wrapped.2 ++ r.1, wrapped.1)
      else (HNode.mk c.tag c.attrs c.text wrapped.1 c.children :: wrapped.2 ++ r.1, [])

/-- Pass 2 for one `div` (lines 321-337): wrap non-blank leading text into a
`p` inserted first, then run the child loop (whose snapshot includes the
freshly inserted `p`). -/
def pass2Div (tx : List Char) (ch : List HNode) : List Char × List HNode :=
  let lead := if trim tx ≠ [] then (([] : List Char), [mkP tx]) else (tx, ([] : List HNode))
  let r := pass2Fold (lead.2 ++ ch)
  (lead.1 ++ r.2, r.1)

-- Pass 2 over the tree: a fresh `findall(".//div")` after pass 1, so only
-- elements still tagged `div` are rewritten; the rewrites of distinct divs
-- are independent, so they are applied on one recursive descent.
mutual

def pass2Go : HNode → HNode
  | .mk tg a tx tl ch =>
      let ch1 := pass2List ch
      if tg = "div" then
        let r := pass2Div tx ch1
        .mk tg a r.1 tl r.2
      else .mk tg a tx tl ch1

def pass2List : List HNode → List HNode
  | [] => []
  | c :: cs => pass2Go c :: pass2List cs

end

/-- `Document.transform_misused_divs_into_paragraphs` (lines 307-337): pass 1
(retag), then pass 2 on a freshly captured node list (the document root is
excluded from `findall(".//div")` in both passes). -/
def transformMisusedDivs (t : HNode) : HNode :=
  let t1 := pass1Go true t
  HNode.mk t1.tag t1.attrs t1.text t1.tail (pass2List t1.children)

-- The claim's version of the function: pass 2 operates on the node set that
-- was tagged `div` before pass 1's retagging (the original div set).  Since
-- pass 1 only changes tags, the original tree is walked in parallel to read
-- the original tags.
mutual

def pass2SpecGo : HNode → HNode → HNode
  | .mk otg _ _ _ och, .mk tg a tx tl ch =>
      let ch1 := pass2SpecList och ch
      if otg = "div" then
        let r := pass2Div tx ch1
        .mk tg a r.1 tl r.2
      else .mk tg a tx tl ch1

def pass2SpecList : List HNode → List HNode → List HNode
  | _, [] => []
  | [], c :: cs => c :: cs
  | o :: os, c :: cs => pass2SpecGo o c :: pass2SpecList os cs

end

/-- The claim's reading of the transformer, used as the foil: pass 2 applied
to the original (pre-retag) div set. -/
def transformSpecDivSet (t : HNode) : HNode :=
  let t1 := pass1Go true t
  HNode.mk t1.tag t1.attrs t1.text t1.tail (pass2SpecList t.children t1.children)

theorem pass1Go_mk (isRoot : Bool) (tg : String) (a : List (String × List Char))
    (tx tl : List Char) (ch : List HNode) :
    pass1Go isRoot (.mk tg a tx tl ch)
      = .mk (if ¬isRoot ∧ tg = "div" ∧ ¬(hasBlockDescendant (.mk tg a tx tl ch))
             then "p" else tg) a tx tl (pass1List ch) := by
  rw [pass1Go]

theorem pass1List_nil : pass1List [] = [] := by rw [pass1List]

theorem pass1List_cons (c : HNode) (cs : List HNode) :
    pass1List (c :: cs) = pass1Go false c :: pass1List cs := by rw [pass1List]

theorem pass2Go_mk (tg : String) (a : List (String × List Char))
    (tx tl : List Char) (ch : List HNode) :
    pass2Go (.mk tg a tx tl ch)
      = if tg = "div" then
          .mk tg a (pass2Div tx (pass2List ch)).1 tl (pass2Div tx (pass2List ch)).2
        else .mk tg a tx tl (pass2List ch) := by
  rw [pass2Go]

theorem pass2List_nil : pass2List [] = [] := by rw [pass2List]

theorem pass2List_cons (c : HNode) (cs : List HNode) :
    pass2List (c :: cs) = pass2Go c :: pass2List cs := by rw [pass2List]

theorem pass2SpecGo_mk (otg : String) (oa : List (String × List Char))
    (otx otl : List Char) (och : List HNode) (tg : String)
    (a : List (String × List Char)) (tx tl : List Char) (ch : List HNode) :
    pass2SpecGo (.mk otg oa otx otl och) (.mk tg a tx tl ch)
      = if otg = "div" then
          .mk tg a (pass2Div tx (pass2SpecList och ch)).1 tl
            (pass2Div tx (pass2SpecList och ch)).2
        else .mk tg a tx tl (pass2SpecList och ch) := by
  rw [pass2SpecGo]

theorem pass2SpecList_nil (os : List HNode) : pass2SpecList os [] = [] := by
  cases os <;> rw [pass2SpecList]

theorem pass2SpecList_cons (o : HNode) (os : List HNode) (c : HNode) (cs : List HNode) :
    pass2SpecList (o :: os) (c :: cs) = pass2SpecGo o c :: pass2SpecList os cs := by
  rw [pass2SpecList]

/-- A document whose only element is a text-only `div`. -/
def cexDivT : HNode :=
  HNode.mk "body" [] [] [] [HNode.mk "div" [] "hello".data [] []]

/-- C8, corrected: pass 2 runs on a freshly captured `findall(".//div")` list
taken after pass 1's retagging, so a `div` retagged to `p` in pass 1 gets no
pass-2 rewrite: its leading text is left in place instead of being wrapped
into a new paragraph child (which the original-div-set reading would do). -/
theorem C8_fresh_div_list (txt : List Char) (h : trim txt ≠ []) :
    transformMisusedDivs (HNode.mk "body" [] [] [] [HNode.mk "div" [] txt [] []])
        = HNode.mk "body" [] [] [] [HNode.mk "p" [] txt [] []]
      ∧ transformSpecDivSet (HNode.mk "body" [] [] [] [HNode.mk "div" [] txt [] []])
        = HNode.mk "body" [] [] [] [HNode.mk "p" [] [] []
            [HNode.mk "p" [] txt [] []]] := by
  have hp1 : pass1Go true (HNode.mk "body" [] [] [] [HNode.mk "div" [] txt [] []])
      = HNode.mk "body" [] [] [] [HNode.mk "p" [] txt [] []] := by
    rw [pass1Go_mk, pass1List_cons, pass1List_nil, pass1Go_mk, pass1List_nil]
    have hblock : hasBlockDescendant (HNode.mk "div" [] txt [] []) = false := by
      rw [hasBlockDescendant, nodesOf, descendants_eq]
      rfl
    rw [if_neg (by simp), if_pos ⟨by simp, rfl, by simp [hblock]⟩]
  constructor
  · rw [transformMisusedDivs]
    rw [hp1]
    simp only [HNode.tag, HNode.attrs, HNode.text, HNode.tail, HNode.children]
    rw [pass2List_cons, pass2List_nil, pass2Go_mk, if_neg (by simp), pass2List_nil]
  · rw [transformSpecDivSet]
    rw [hp1]
    simp only [HNode.tag, HNode.attrs, HNode.text, HNode.tail, HNode.children]
    rw [pass2SpecList_cons, pass2SpecList_nil, pass2SpecGo_mk, if_pos rfl,
      pass2SpecList_nil]
    rw [pass2Div]
    rw [if_pos (by simpa using h)]
    simp only [List.nil_append, List.append_nil]
    rw [pass2Fold, pass2Fold]
    simp [mkP, trim, HNode.tag, HNode.tail, HNode.attrs, HNode.text, HNode.children]

/-- Witness for C8's theorem at the text "hello". -/
theorem C8_fresh_div_list_witness :
    trim "hello".data ≠ []
      ∧ transformMisusedDivs cexDivT
          = HNode.mk "body" [] [] [] [HNode.mk "p" [] "hello".data [] []] :=
  ⟨by decide, (C8_fresh_div_list "hello".data (by decide)).1⟩

/-- C8, counterexample to the claim as stated: on a text-only `div`, the code
retags it to `p` and pass 2 does not touch it, while the claimed
original-div-set pass 2 would wrap its text into a nested paragraph — the two
readings produce different trees. -/
theorem C8_counterexample :
    transformMisusedDivs cexDivT
        = HNode.mk "body" [] [] [] [HNode.mk "p" [] "hello".data [] []]
      ∧ transformSpecDivSet cexDivT
        = HNode.mk "body" [] [] [] [HNode.mk "p" [] [] [] [HNode.mk "p" [] "hello".data [] []]]
      ∧ transformMisusedDivs cexDivT ≠ transformSpecDivSet cexDivT := by
  obtain ⟨h1, h2⟩ := C8_fresh_div_list "hello".data (by decide)
  refine ⟨h1, h2, ?_⟩
  show transformMisusedDivs (HNode.mk "body" [] [] []
      [HNode.mk "div" [] "hello".data [] []]) ≠ _
  rw [h1]
  show _ ≠ transformSpecDivSet (HNode.mk "body" [] [] []
      [HNode.mk "div" [] "hello".data [] []])
  rw [h2]
  intro hcon
  rw [HNode.mk.injEq] at hcon
  have h3 := hcon.2.2.2.2
  rw [List.cons.injEq, HNode.mk.injEq] at h3
  have h4 := h3.1.2.2.2.2
  cases h4

/-! ### C2, C7, C10: the `summary` orchestrator loop (lines 128-168)

The loop's control flow is embedded exactly; the pipeline steps it drives are
the collaborator operations below (their concrete tree-level models appear
elsewhere in this file). -/

structure SummaryOps (S Art CMap Cand : Type) where
  /-- drop `script`/`style` subtrees and set the body marker id
  (lines 137-140) -/
  stripAndMark : S → S
  /-- `remove_unlikely_candidates` (line 142, ruthless mode only) -/
  removeUnlikely : S → S
  /-- `transform_misused_divs_into_paragraphs` (line 143) -/
  transformDivs : S → S
  /-- `score_paragraphs` (line 144) -/
  scoreParas : S → CMap
  /-- `select_best_candidate` (line 146) -/
  selectBest : CMap → Option Cand
  /-- `get_article` (line 149) -/
  articleOf : S → CMap → Cand → Art
  /-- the lenient fallback article (lines 158-160) -/
  fallbackArt : S → Art
  /-- `sanitize` up to its line 475: rewrites the article and installs it as
  the new `self.doc` -/
  sanitizeUpd : S → Art → CMap → S
  /-- `get_clean_html` (lines 121-126); by line 476, `sanitize` returns
  `self.get_clean_html()` on the updated state -/
  cleanHtml : S → String
  retryLength : Nat

/-- The per-iteration document preparation (lines 137-143): strip and mark,
prune in ruthless mode only, then normalize the divs. -/
def prepDoc {S Art CMap Cand : Type} (ops : SummaryOps S Art CMap Cand)
    (ruthless : Bool) (doc : S) : S :=
  let d0 := ops.stripAndMark doc
  let d1 := if ruthless then ops.removeUnlikely d0 else d0
  ops.transformDivs d1

/-- The article chosen by one iteration (lines 146-160): the best candidate's
assembly when there is one; otherwise `none` in ruthless mode (the `continue`
at line 155) and the body/document fallback in lenient mode. -/
def articleChoice {S Art CMap Cand : Type} (ops : SummaryOps S Art CMap Cand)
    (ruthless : Bool) (d2 : S) : Option Art :=
  match ops.selectBest (ops.scoreParas d2) with
  | some best => some (ops.articleOf d2 (ops.scoreParas d2) best)
  | none => if ruthless then none else some (ops.fallbackArt d2)

/-- `self.sanitize(article, candidates)`'s state update (line 162/475). -/
def sanState {S Art CMap Cand : Type} (ops : SummaryOps S Art CMap Cand)
    (d2 : S) (article : Art) : S :=
  ops.sanitizeUpd d2 article (ops.scoreParas d2)

/-- `Document.summary` (lines 128-168), with explicit fuel bounding the
number of `while True` iterations; the returned state is the final
`self.doc`. -/
def summaryGo {S Art CMap Cand : Type} (ops : SummaryOps S Art CMap Cand) :
    Bool → S → Nat → Option (S × String)
  | _, _, 0 => none
  | ruthless, doc, fuel + 1 =>
      let d2 := prepDoc ops ruthless doc
      match articleChoice ops ruthless d2 with
      | none => summaryGo ops false d2 fuel
      | some article =>
          let s1 := sanState ops d2 article
          let cleaned := ops.cleanHtml s1
          if ruthless = true ∧ cleaned.length < ops.retryLength then
            summaryGo ops false s1 fuel
          else some (s1, cleaned)

theorem articleChoice_lenient_isSome {S Art CMap Cand : Type}
    (ops : SummaryOps S Art CMap Cand) (d2 : S) :
    (articleChoice ops false d2).isSome = true := by
  rw [articleChoice]
  cases ops.selectBest (ops.scoreParas d2) <;> simp

theorem summaryGo_succ_none {S Art CMap Cand : Type} (ops : SummaryOps S Art CMap Cand)
    (ruthless : Bool) (doc : S) (fuel : Nat)
    (h : articleChoice ops ruthless (prepDoc ops ruthless doc) = none) :
    summaryGo ops ruthless doc (fuel + 1)
      = summaryGo ops false (prepDoc ops ruthless doc) fuel := by
  rw [summaryGo, h]

theorem summaryGo_succ_some {S Art CMap Cand : Type} (ops : SummaryOps S Art CMap Cand)
    (ruthless : Bool) (doc : S) (fuel : Nat) (article : Art)
    (h : articleChoice ops ruthless (prepDoc ops ruthless doc) = some article) :
    summaryGo ops ruthless doc (fuel + 1)
      = (if ruthless = true
            ∧ (ops.cleanHtml (sanState ops (prepDoc ops ruthless doc) article)).length
                < ops.retryLength
         then summaryGo ops false (sanState ops (prepDoc ops ruthless doc) article) fuel
         else some (sanState ops (prepDoc ops ruthless doc) article,
           ops.cleanHtml (sanState ops (prepDoc ops ruthless doc) article))) := by
  rw [summaryGo, h]

/-- One lenient iteration always returns, whatever the pipeline does, and
extra fuel never changes its result. -/
theorem summaryGo_lenient {S Art CMap Cand : Type} (ops : SummaryOps S Art CMap Cand)
    (s : S) (fuel : Nat) :
    summaryGo ops false s (fuel + 1) = summaryGo ops false s 1
      ∧ (summaryGo ops false s 1).isSome = true := by
  cases h : articleChoice ops false (prepDoc ops false s) with
  | none =>
      have h2 := articleChoice_lenient_isSome ops (prepDoc ops false s)
      rw [h] at h2
      cases h2
  | some article =>
      rw [summaryGo_succ_some ops false s fuel article h,
        summaryGo_succ_some ops false s 0 article h]
      rw [if_neg (fun hc => Bool.false_ne_true hc.1),
        if_neg (fun hc => Bool.false_ne_true hc.1)]
      simp

/-- C2: for every input and every pipeline behaviour, `summary` terminates
within 2 iterations of its loop: fuel 2 always yields a result and more fuel
never changes it (a third iteration is never executed), and once the lenient
pass runs it returns in that very iteration regardless of the output
length. -/
theorem C2_summary_two_passes {S Art CMap Cand : Type}
    (ops : SummaryOps S Art CMap Cand) (s : S) (n : Nat) :
    (summaryGo ops true s 2).isSome = true
      ∧ summaryGo ops true s (2 + n) = summaryGo ops true s 2
      ∧ ∀ s' : S, (summaryGo ops false s' 1).isSome = true := by
  refine ⟨?_, ?_, fun s' => (summaryGo_lenient ops s' 0).2⟩
  · cases h : articleChoice ops true (prepDoc ops true s) with
    | none =>
        rw [show (2 : Nat) = 1 + 1 from rfl, summaryGo_succ_none ops true s 1 h]
        exact (summaryGo_lenient ops _ 0).2
    | some article =>
        rw [show (2 : Nat) = 1 + 1 from rfl, summaryGo_succ_some ops true s 1 article h]
        by_cases hshort :
            (ops.cleanHtml (sanState ops (prepDoc ops true s) article)).length
              < ops.retryLength
        · rw [if_pos ⟨rfl, hshort⟩]
          exact (summaryGo_lenient ops _ 0).2
        · rw [if_neg (fun hc => hshort hc.2)]
          rfl
  · cases h : articleChoice ops true (prepDoc ops true s) with
    | none =>
        rw [show 2 + n = (n + 1) + 1 from by omega,
          summaryGo_succ_none ops true s (n + 1) h,
          show (2 : Nat) = 1 + 1 from rfl, summaryGo_succ_none ops true s 1 h]
        exact ((summaryGo_lenient ops _ n).1).trans ((summaryGo_lenient ops _ 0).1).symm
    | some article =>
        rw [show 2 + n = (n + 1) + 1 from by omega,
          summaryGo_succ_some ops true s (n + 1) article h,
          show (2 : Nat) = 1 + 1 from rfl, summaryGo_succ_some ops true s 1 article h]
        by_cases hshort :
            (ops.cleanHtml (sanState ops (prepDoc ops true s) article)).length
              < ops.retryLength
        · rw [if_pos ⟨rfl, hshort⟩, if_pos ⟨rfl, hshort⟩]
          exact ((summaryGo_lenient ops _ n).1).trans ((summaryGo_lenient ops _ 0).1).symm
        · rw [if_neg (fun hc => hshort hc.2), if_neg (fun hc => hshort hc.2)]

/-- Lines 158-160: `self.doc.find("body")` — the first direct child tagged
`body` — or the whole document when there is none. -/
def fallbackArticle (d : HNode) : HNode :=
  (d.children.find? (fun c => c.tag == "body")).getD d

/-- C7, corrected: a no-candidate iteration is recovered locally and never
surfaced as an error, but only the LENIENT pass falls back to the body (or
whole document) and sanitizes it; a ruthless iteration with no candidate
produces no output at all — it switches to lenient and re-runs (`continue`,
line 155).  The concrete fallback picks the first `body` child or the
document itself. -/
theorem C7_no_candidate_fallback {S Art CMap Cand : Type}
    (ops : SummaryOps S Art CMap Cand) (s : S) (fuel : Nat) :
    (ops.selectBest (ops.scoreParas (prepDoc ops false s)) = none →
        summaryGo ops false s (fuel + 1)
          = some (sanState ops (prepDoc ops false s)
                (ops.fallbackArt (prepDoc ops false s)),
              ops.cleanHtml (sanState ops (prepDoc ops false s)
                (ops.fallbackArt (prepDoc ops false s)))))
      ∧ (ops.selectBest (ops.scoreParas (prepDoc ops true s)) = none →
          summaryGo ops true s (fuel + 1)
            = summaryGo ops false (prepDoc ops true s) fuel)
      ∧ ∀ d : HNode, (fallbackArticle d).tag = "body" ∨ fallbackArticle d = d := by
  refine ⟨?_, ?_, ?_⟩
  · intro hsel
    have hart : articleChoice ops false (prepDoc ops false s)
        = some (ops.fallbackArt (prepDoc ops false s)) := by
      rw [articleChoice, hsel]
      simp
    rw [summaryGo_succ_some ops false s fuel _ hart,
      if_neg (fun hc => Bool.false_ne_true hc.1)]
  · intro hsel
    have hart : articleChoice ops true (prepDoc ops true s) = none := by
      rw [articleChoice, hsel]
      simp
    exact summaryGo_succ_none ops true s fuel hart
  · intro d
    rw [fallbackArticle]
    cases hf : d.children.find? (fun c => c.tag == "body") with
    | none => exact Or.inr rfl
    | some c =>
        left
        have := List.find?_some hf
        simpa using this

/-- The claim's reading of the loop: EVERY no-candidate iteration falls back
to the body/document and sanitizes it to produce that iteration's output,
which then goes through the usual length gate. -/
def summarySpecGo {S Art CMap Cand : Type} (ops : SummaryOps S Art CMap Cand) :
    Bool → S → Nat → Option (S × String)
  | _, _, 0 => none
  | ruthless, doc, fuel + 1 =>
      let d2 := prepDoc ops ruthless doc
      let article := match ops.selectBest (ops.scoreParas d2) with
        | some best => ops.articleOf d2 (ops.scoreParas d2) best
        | none => ops.fallbackArt d2
      let s1 := sanState ops d2 article
      let cleaned := ops.cleanHtml s1
      if ruthless = true ∧ cleaned.length < ops.retryLength then
        summarySpecGo ops false s1 fuel
      else some (s1, cleaned)

/-- A concrete pipeline over natural-number states that never finds a best
candidate; each stage stamps the state so that the traces are observable. -/
def natOps : SummaryOps Nat Nat Nat Nat where
  stripAndMark := fun s => s + 1
  removeUnlikely := fun s => s + 3
  transformDivs := fun s => s + 5
  scoreParas := fun s => s
  selectBest := fun _ => none
  articleOf := fun _ _ _ => 0
  fallbackArt := fun s => s
  sanitizeUpd := fun s a _ => 2 * s + a + 1
  cleanHtml := fun s => String.mk (List.replicate s 'x')
  retryLength := 250

/-- C7, counterexample to the claim as stated: on a pipeline whose selector
never finds a candidate, the code's ruthless iteration sanitizes nothing
(state 9 is handed to the lenient pass unsanitized, which then produces
state 46), while the claimed behaviour would sanitize the ruthless fallback
too and end in state 103 — the loop results differ. -/
theorem C7_counterexample :
    summaryGo natOps true 0 2 = some (46, String.mk (List.replicate 46 'x'))
      ∧ summarySpecGo natOps true 0 2 = some (103, String.mk (List.replicate 103 'x'))
      ∧ summaryGo natOps true 0 2 ≠ summarySpecGo natOps true 0 2 := by
  refine ⟨rfl, rfl, ?_⟩
  decide

/-- Witness for C7: the lenient no-candidate iteration returns the sanitized
fallback. -/
theorem C7_no_candidate_fallback_witness :
    natOps.selectBest (natOps.scoreParas (prepDoc natOps false 9)) = none
      ∧ summaryGo natOps false 9 1
          = some (sanState natOps (prepDoc natOps false 9)
                (natOps.fallbackArt (prepDoc natOps false 9)),
              natOps.cleanHtml (sanState natOps (prepDoc natOps false 9)
                (natOps.fallbackArt (prepDoc natOps false 9)))) :=
  ⟨rfl, (C7_no_candidate_fallback natOps 9 0).1 rfl⟩

/-- C10: whatever the pipeline does, when `summary` returns a string it is
exactly `get_clean_html` of the final document state (`sanitize` installs the
article as `self.doc` and returns `self.get_clean_html()`), so a subsequent
`get_clean_html()` with no intervening mutation returns `summary`'s result. -/
theorem C10_summary_clean_html {S Art CMap Cand : Type}
    (ops : SummaryOps S Art CMap Cand) (ruthless : Bool) (s : S) (fuel : Nat)
    (sFinal : S) (r : String)
    (h : summaryGo ops ruthless s fuel = some (sFinal, r)) :
    ops.cleanHtml sFinal = r := by
  induction fuel generalizing ruthless s with
  | zero => rw [summaryGo] at h; cases h
  | succ fuel ih =>
      cases hc : articleChoice ops ruthless (prepDoc ops ruthless s) with
      | none =>
          rw [summaryGo_succ_none ops ruthless s fuel hc] at h
          exact ih false _ h
      | some article =>
          rw [summaryGo_succ_some ops ruthless s fuel article hc] at h
          by_cases hshort : ruthless = true
              ∧ (ops.cleanHtml (sanState ops (prepDoc ops ruthless s) article)).length
                  < ops.retryLength
          · rw [if_pos hshort] at h
            exact ih false _ h
          · rw [if_neg hshort] at h
            have h1 := Option.some.inj h
            rw [Prod.mk.injEq] at h1
            rw [← h1.1, ← h1.2]

/-- Witness for C10 on the concrete pipeline. -/
theorem C10_summary_clean_html_witness :
    summaryGo natOps true 0 2 = some (46, String.mk (List.replicate 46 'x'))
      ∧ natOps.cleanHtml 46 = String.mk (List.replicate 46 'x') :=
  ⟨rfl, C10_summary_clean_html natOps true 0 2 46 (String.mk (List.replicate 46 'x')) rfl⟩

/-! ### C9: `clean_attributes` (lines 32-50)

The `HTMLSTRIP` pattern is
`<([^>]+) (?:width|height|style|[-a-z]*color|background[-a-z]*|on*) *= *(?:[^ "'>]+|'[^']+'|"[^"]+")([^>]*)>`
with `re.I`.  The matcher below follows Python's semantics: leftmost match;
alternatives in source order; greedy stars trying longest first; the
sub-patterns after the attribute name are deterministic because their first
characters are mutually exclusive.  `re.sub` replaces every non-overlapping
match with `<\1\2>`, and `clean_attributes` loops until no match remains. -/

/-- `[^>]`. -/
def isNotGt (c : Char) : Bool := c ≠ '>'

/-- `[^ "'>]` (the `NON_SPACE` value form). -/
def isValueChar (c : Char) : Bool :=
  c ≠ ' ' && c ≠ '"' && c ≠ '\'' && c ≠ '>'

/-- `[-a-z]` under `re.I`. -/
def isDashAlpha (c : Char) : Bool :=
  c = '-' || ('a' ≤ c.toLower && c.toLower ≤ 'z')

/-- All splits of a greedy `p*` star: the consumed part and the rest,
longest consumed part first (Python's backtracking order). -/
def starSplits (p : Char → Bool) : List Char → List (List Char × List Char)
  | [] => [([], [])]
  | c :: rest =>
      if p c then
        ((starSplits p rest).map (fun pr => (c :: pr.1, pr.2))) ++ [([], c :: rest)]
      else [([], c :: rest)]

/-- All splits of a greedy `p+`, longest first. -/
def plusSplits (p : Char → Bool) (s : List Char) : List (List Char × List Char) :=
  (starSplits p s).filter (fun pr => !pr.1.isEmpty)

/-- A case-insensitive literal. -/
def ciLit (lit s : List Char) : Option (List Char × List Char) :=
  if ciBegins lit s then some (s.take lit.length, s.drop lit.length) else none

/-- The `BAD_ATTRS` alternation
`width|height|style|[-a-z]*color|background[-a-z]*|on*`: every way it can
match a prefix of `s`, in Python's priority order (alternatives left to
right, stars longest first).  Note `on*` is the literal `o` followed by any
number of `n`s. -/
def badAttrSplits (s : List Char) : List (List Char × List Char) :=
  ((ciLit "width".data s).toList)
    ++ ((ciLit "height".data s).toList)
    ++ ((ciLit "style".data s).toList)
    ++ ((starSplits isDashAlpha s).filterMap (fun pr =>
          (ciLit "color".data pr.2).map (fun pr2 => (pr.1 ++ pr2.1, pr2.2))))
    ++ (match ciLit "background".data s with
        | some pr => (starSplits isDashAlpha pr.2).map
            (fun pr2 => (pr.1 ++ pr2.1, pr2.2))
        | none => [])
    ++ (match s with
        | [] => []
        | c :: rest =>
            if ciEq c 'o' then
              (starSplits (fun d => ciEq d 'n') rest).map
                (fun pr => (c :: pr.1, pr.2))
            else [])

/-- ` *= *` after the attribute name.  Deterministic: a shorter space run
would leave a space where `=` (resp. the value's first character, which is
never a space) is required. -/
def spacesEqSplit (s : List Char) : Option (List Char × List Char) :=
  let sp1 := s.takeWhile (fun c => c = ' ')
  match s.dropWhile (fun c => c = ' ') with
  | '=' :: r2 =>
      let sp2 := r2.takeWhile (fun c => c = ' ')
      some (sp1 ++ '=' :: sp2, r2.dropWhile (fun c => c = ' '))
  | _ => none

/-- The value `(?:[^ "'>]+|'[^']+'|"[^"]+")`.  Deterministic: the three
alternatives are distinguished by the first character, a quoted body cannot
cross its own quote, and the greedy `[^ "'>]+` never needs to backtrack
because shortening it only moves non-`>` characters into the `([^>]*)`
group. -/
def valueSplit (s : List Char) : Option (List Char × List Char) :=
  match s with
  | [] => none
  | c :: rest =>
      if c = '\'' then
        let body := rest.takeWhile (fun d => d ≠ '\'')
        match body, rest.dropWhile (fun d => d ≠ '\'') with
        | _ :: _, '\'' :: r3 => some (c :: body ++ ['\''], r3)
        | _, _ => none
      else if c = '"' then
        let body := rest.takeWhile (fun d => d ≠ '"')
        match body, rest.dropWhile (fun d => d ≠ '"') with
        | _ :: _, '"' :: r3 => some (c :: body ++ ['"'], r3)
        | _, _ => none
      else if isValueChar c then
        some ((c :: rest).takeWhile isValueChar, (c :: rest).dropWhile isValueChar)
      else none

/-- Everything after `([^>]+) `: the attribute name, ` *= *`, the value, the
group `([^>]*)` and the closing `>`; returns (attribute-to-value part, g2,
rest after `>`). -/
def attrTail (s : List Char) : Option (List Char × List Char × List Char) :=
  (badAttrSplits s).findSome? fun pr =>
    match spacesEqSplit pr.2 with
    | none => none
    | some eqv =>
        match valueSplit eqv.2 with
        | none => none
        | some v =>
            match v.2.dropWhile isNotGt with
            | '>' :: post => some (pr.1 ++ eqv.1 ++ v.1, v.2.takeWhile isNotGt, post)
            | _ => none

/-- One result of the leftmost `HTMLSTRIP` match: the decomposition
`pre ++ '<' :: g1 ++ ' ' :: mid ++ g2 ++ '>' :: post` of the input. -/
structure TagMatch where
  pre : List Char
  g1 : List Char
  mid : List Char
  g2 : List Char
  post : List Char

/-- Matching `([^>]+) BAD *= *VALUE([^>]*)>` right after a `<`. -/
def matchAfterLt (s : List Char) : Option (List Char × List Char × List Char × List Char) :=
  (plusSplits isNotGt s).findSome? fun pr =>
    match pr.2 with
    | ' ' :: r2 =>
        match attrTail r2 with
        | some mg => some (pr.1, mg.1, mg.2.1, mg.2.2)
        | none => none
    | _ => none

/-- `HTMLSTRIP.search`: the leftmost match (every match begins at a `<`). -/
def findTagMatch : List Char → Option TagMatch
  | [] => none
  | c :: rest =>
      if c = '<' then
        match matchAfterLt rest with
        | some r => some ⟨[], r.1, r.2.1, r.2.2.1, r.2.2.2⟩
        | none =>
            (findTagMatch rest).map (fun m => ⟨c :: m.pre, m.g1, m.mid, m.g2, m.post⟩)
      else
        (findTagMatch rest).map (fun m => ⟨c :: m.pre, m.g1, m.mid, m.g2, m.post⟩)

/-- Every split produced by `starSplits` concatenates back to the input. -/
theorem starSplits_decomp (p : Char → Bool) (s : List Char) :
    ∀ pr ∈ starSplits p s, pr.1 ++ pr.2 = s := by
  induction s with
  | nil =>
      intro pr h
      simp [starSplits] at h
      simp [h]
  | cons c rest ih =>
      intro pr h
      rw [starSplits] at h
      by_cases hc : p c = true
      · rw [if_pos hc] at h
        rcases List.mem_append.mp h with h1 | h1
        · obtain ⟨q, hq, hq2⟩ := List.mem_map.mp h1
          have hq3 := ih q hq
          subst hq2
          simp [hq3]
        · simp at h1
          simp [h1]
      · rw [if_neg hc] at h
        simp at h
        simp [h]

/-- Every split produced by `plusSplits` concatenates back to the input and
has a nonempty consumed part. -/
theorem plusSplits_decomp (p : Char → Bool) (s : List Char) :
    ∀ pr ∈ plusSplits p s, pr.1 ++ pr.2 = s ∧ pr.1 ≠ [] := by
  intro pr h
  rw [plusSplits] at h
  obtain ⟨h1, h2⟩ := List.mem_filter.mp h
  refine ⟨starSplits_decomp p s pr h1, ?_⟩
  intro hnil
  rw [hnil] at h2
  simp at h2

theorem ciBegins_length (lit : List Char) :
    ∀ s : List Char, ciBegins lit s = true → lit.length ≤ s.length := by
  induction lit with
  | nil =>
      intro s _
      simp
  | cons a x ih =>
      intro s h
      match s with
      | [] => simp [ciBegins] at h
      | b :: y =>
          rw [ciBegins, Bool.and_eq_true] at h
          simp only [List.length_cons]
          exact Nat.succ_le_succ (ih y h.2)

/-- A successful case-insensitive literal match concatenates back to the
input and consumes exactly the literal's length. -/
theorem ciLit_decomp (lit s p1 p2 : List Char) (h : ciLit lit s = some (p1, p2)) :
    p1 ++ p2 = s ∧ p1.length = lit.length := by
  rw [ciLit] at h
  by_cases hb : ciBegins lit s = true
  · rw [if_pos hb] at h
    have hlen := ciBegins_length lit s hb
    simp only [Option.some.injEq, Prod.mk.injEq] at h
    obtain ⟨h1, h2⟩ := h
    subst h1
    subst h2
    refine ⟨List.take_append_drop _ _, ?_⟩
    rw [List.length_take]
    omega
  · rw [if_neg hb] at h
    cases h

/-- Every match of the `BAD_ATTRS` alternation concatenates back to the
input and consumes at least one character. -/
theorem badAttrSplits_decomp (s : List Char) :
    ∀ pr ∈ badAttrSplits s, pr.1 ++ pr.2 = s ∧ pr.1 ≠ [] := by
  intro pr h
  obtain ⟨p1, p2⟩ := pr
  show p1 ++ p2 = s ∧ p1 ≠ []
  rw [badAttrSplits.eq_def] at h
  simp only [List.mem_append] at h
  rcases h with ((((h | h) | h) | h) | h) | h
  · rw [Option.mem_toList, Option.mem_def] at h
    obtain ⟨h1, h2⟩ := ciLit_decomp _ s p1 p2 h
    exact ⟨h1, by intro hn; rw [hn] at h2; simp at h2⟩
  · rw [Option.mem_toList, Option.mem_def] at h
    obtain ⟨h1, h2⟩ := ciLit_decomp _ s p1 p2 h
    exact ⟨h1, by intro hn; rw [hn] at h2; simp at h2⟩
  · rw [Option.mem_toList, Option.mem_def] at h
    obtain ⟨h1, h2⟩ := ciLit_decomp _ s p1 p2 h
    exact ⟨h1, by intro hn; rw [hn] at h2; simp at h2⟩
  · obtain ⟨q, hq, hmap⟩ := List.mem_filterMap.mp h
    have hq2 := starSplits_decomp isDashAlpha s q hq
    obtain ⟨r, hr, hr2⟩ := Option.map_eq_some'.mp hmap
    obtain ⟨r1, r2⟩ := r
    obtain ⟨hrd, hrl⟩ := ciLit_decomp _ q.2 r1 r2 hr
    simp only [Prod.mk.injEq] at hr2
    obtain ⟨he1, he2⟩ := hr2
    constructor
    · rw [← he1, ← he2, List.append_assoc, hrd, hq2]
    · intro hn
      rw [← he1] at hn
      have := (List.append_eq_nil.mp hn).2
      rw [this] at hrl
      simp at hrl
  · rcases hbg : ciLit "background".data s with _ | qp
    · rw [hbg] at h
      cases h
    · rw [hbg] at h
      obtain ⟨qp1, qp2⟩ := qp
      obtain ⟨hqd, hql⟩ := ciLit_decomp _ s qp1 qp2 hbg
      obtain ⟨q, hq, hq2⟩ := List.mem_map.mp h
      have hq3 := starSplits_decomp isDashAlpha qp2 q hq
      simp only [Prod.mk.injEq] at hq2
      obtain ⟨he1, he2⟩ := hq2
      constructor
      · rw [← he1, ← he2, List.append_assoc, hq3, hqd]
      · intro hn
        rw [← he1] at hn
        have := (List.append_eq_nil.mp hn).1
        rw [this] at hql
        simp at hql
  · match s with
    | [] => cases h
    | c :: rest =>
        have h9 : (p1, p2) ∈ (if ciEq c 'o' = true then
            List.map (fun pr => (c :: pr.1, pr.2)) (starSplits (fun d => ciEq d 'n') rest)
          else []) := h
        by_cases hc : ciEq c 'o' = true
        · rw [if_pos hc] at h9
          obtain ⟨q, hq, hq2⟩ := List.mem_map.mp h9
          have hq3 := starSplits_decomp (fun d => ciEq d 'n') rest q hq
          simp only [Prod.mk.injEq] at hq2
          obtain ⟨he1, he2⟩ := hq2
          refine ⟨?_, by rw [← he1]; simp⟩
          rw [← he1, ← he2]
          simp [hq3]
        · rw [if_neg hc] at h9
          cases h9

/-- A successful ` *= *` match concatenates back to the input. -/
theorem spacesEqSplit_decomp (s p1 p2 : List Char)
    (h : spacesEqSplit s = some (p1, p2)) : p1 ++ p2 = s := by
  rw [spacesEqSplit] at h
  split at h
  next r2 heq =>
    simp only [Option.some.injEq, Prod.mk.injEq] at h
    obtain ⟨h1, h2⟩ := h
    rw [← h1, ← h2]
    simp only [List.append_assoc, List.cons_append, List.takeWhile_append_dropWhile]
    rw [← heq, List.takeWhile_append_dropWhile]
  next => cases h

/-- A successful value match concatenates back to the input. -/
theorem valueSplit_decomp (s p1 p2 : List Char)
    (h : valueSplit s = some (p1, p2)) : p1 ++ p2 = s := by
  rw [valueSplit.eq_def] at h
  split at h
  next => cases h
  next c rest =>
    by_cases hq1 : c = '\''
    · rw [if_pos hq1] at h
      simp only [] at h
      split at h
      next b bs heq1 heq2 =>
        simp only [Option.some.injEq, Prod.mk.injEq] at h
        obtain ⟨h1, h2⟩ := h
        rw [← h1, ← h2]
        simp only [List.cons_append, List.append_assoc, List.singleton_append,
          List.nil_append]
        rw [← heq2, List.takeWhile_append_dropWhile]
      next => cases h
    · rw [if_neg hq1] at h
      by_cases hq2 : c = '"'
      · rw [if_pos hq2] at h
        simp only [] at h
        split at h
        next b bs heq1 heq2 =>
          simp only [Option.some.injEq, Prod.mk.injEq] at h
          obtain ⟨h1, h2⟩ := h
          rw [← h1, ← h2]
          simp only [List.cons_append, List.append_assoc, List.singleton_append,
            List.nil_append]
          rw [← heq2, List.takeWhile_append_dropWhile]
        next => cases h
      · rw [if_neg hq2] at h
        by_cases hv : isValueChar c = true
        · rw [if_pos hv] at h
          simp only [Option.some.injEq, Prod.mk.injEq] at h
          obtain ⟨h1, h2⟩ := h
          rw [← h1, ← h2, List.takeWhile_append_dropWhile]
        · rw [if_neg hv] at h
          cases h

/-- A successful `attrTail` match reconstructs the input as
`mid ++ g2 ++ '>' :: post`, and `mid` is nonempty. -/
theorem attrTail_decomp (s m g2 post : List Char)
    (h : attrTail s = some (m, g2, post)) :
    m ++ g2 ++ '>' :: post = s ∧ m ≠ [] := by
  rw [attrTail] at h
  obtain ⟨pr, hpr, hf⟩ := List.exists_of_findSome?_eq_some h
  obtain ⟨hsplit, hne⟩ := badAttrSplits_decomp s pr hpr
  split at hf
  next => cases hf
  next eqv heq1 =>
    split at hf
    next => cases hf
    next v heq2 =>
      split at hf
      next post' heq3 =>
        simp only [Option.some.injEq, Prod.mk.injEq] at hf
        obtain ⟨h1, h2, h3⟩ := hf
        obtain ⟨eqv1, eqv2⟩ := eqv
        obtain ⟨v1, v2⟩ := v
        have hsp := spacesEqSplit_decomp pr.2 eqv1 eqv2 heq1
        have hval := valueSplit_decomp eqv2 v1 v2 heq2
        constructor
        · rw [← h1, ← h2, ← h3]
          have hv2 : List.takeWhile isNotGt v2 ++ '>' :: post' = v2 := by
            rw [← heq3, List.takeWhile_append_dropWhile]
          simp only [List.append_assoc]
          rw [hv2, hval, hsp, hsplit]
        · intro hm
          rw [← h1] at hm
          exact hne (List.append_eq_nil.mp (List.append_eq_nil.mp hm).1).1
      next => cases hf

/-- A successful match after the `<` reconstructs the input as
`g1 ++ ' ' :: mid ++ g2 ++ '>' :: post`, with `g1` and `mid` nonempty. -/
theorem matchAfterLt_decomp (s g1 m g2 post : List Char)
    (h : matchAfterLt s = some (g1, m, g2, post)) :
    g1 ++ ' ' :: (m ++ g2 ++ '>' :: post) = s ∧ m ≠ [] := by
  rw [matchAfterLt] at h
  obtain ⟨pr, hpr, hf⟩ := List.exists_of_findSome?_eq_some h
  obtain ⟨hsplit, hne⟩ := plusSplits_decomp isNotGt s pr hpr
  split at hf
  next r2 heq =>
    split at hf
    next mg heq2 =>
      obtain ⟨mg1, mg2, mg3⟩ := mg
      simp only [Option.some.injEq, Prod.mk.injEq] at hf
      obtain ⟨h1, h2, h3, h4⟩ := hf
      obtain ⟨hr2, hmne⟩ := attrTail_decomp r2 mg1 mg2 mg3 heq2
      refine ⟨?_, by rw [← h2]; exact hmne⟩
      rw [← h1, ← h2, ← h3, ← h4, hr2, ← heq]
      exact hsplit
    next => cases hf
  next => cases hf

/-- A successful `findTagMatch` reconstructs the input as
`pre ++ '<' :: g1 ++ ' ' :: mid ++ g2 ++ '>' :: post`, with nonempty `mid`. -/
theorem findTagMatch_decomp (l : List Char) (tm : TagMatch)
    (h : findTagMatch l = some tm) :
    tm.pre ++ '<' :: (tm.g1 ++ ' ' :: (tm.mid ++ tm.g2 ++ '>' :: tm.post)) = l ∧
      tm.mid ≠ [] := by
  induction l generalizing tm with
  | nil => cases h
  | cons c rest ih =>
      rw [findTagMatch] at h
      by_cases hc : c = '<'
      · rw [if_pos hc] at h
        split at h
        next r heq =>
          obtain ⟨r1, r2, r3, r4⟩ := r
          simp only [Option.some.injEq] at h
          obtain ⟨hd, hm⟩ := matchAfterLt_decomp rest r1 r2 r3 r4 heq
          rw [← h]
          exact ⟨by rw [hc]; simpa using hd, hm⟩
        next heq =>
          obtain ⟨m0, hrec, hmb⟩ := Option.map_eq_some'.mp h
          obtain ⟨hd, hm⟩ := ih m0 hrec
          rw [← hmb]
          exact ⟨by simpa using hd, hm⟩
      · rw [if_neg hc] at h
        obtain ⟨m0, hrec, hmb⟩ := Option.map_eq_some'.mp h
        obtain ⟨hd, hm⟩ := ih m0 hrec
        rw [← hmb]
        exact ⟨by simpa using hd, hm⟩

/-- `HTMLSTRIP.sub("<\1\2>", ...)`: replace every non-overlapping match
`<g1 ' ' mid g2 >` by `<g1 g2>`, resuming the scan after the replaced match
(Python `re.sub` semantics). -/
def subAll (l : List Char) : List Char :=
  match hm : findTagMatch l with
  | none => l
  | some tm => tm.pre ++ '<' :: (tm.g1 ++ tm.g2) ++ '>' :: subAll tm.post
termination_by l.length
decreasing_by
  have hd := (findTagMatch_decomp l tm hm).1
  have hlen := congrArg List.length hd
  simp only [List.length_append, List.length_cons] at hlen
  omega

theorem subAll_none (l : List Char) (h : findTagMatch l = none) : subAll l = l := by
  rw [subAll.eq_def]
  split
  next => rfl
  next tm heq => rw [h] at heq; cases heq

theorem subAll_matched (l : List Char) (tm : TagMatch)
    (h : findTagMatch l = some tm) :
    subAll l = tm.pre ++ '<' :: (tm.g1 ++ tm.g2) ++ '>' :: subAll tm.post := by
  rw [subAll.eq_def]
  split
  next heq => rw [h] at heq; cases heq
  next tm' heq =>
    rw [h] at heq
    injection heq with heq'
    rw [heq']

theorem subAll_length_le (l : List Char) : (subAll l).length ≤ l.length := by
  rw [subAll.eq_def]
  split
  next => exact le_refl _
  next tm heq =>
    have hd := (findTagMatch_decomp l tm heq).1
    have hlen := congrArg List.length hd
    simp only [List.length_append, List.length_cons] at hlen
    have hrec := subAll_length_le tm.post
    simp only [List.length_append, List.length_cons]
    omega
termination_by l.length
decreasing_by
  rename_i tm hm1 hm2 heq
  have hd := (findTagMatch_decomp l tm heq).1
  have hlen := congrArg List.length hd
  simp only [List.length_append, List.length_cons] at hlen
  omega

/-- One substitution round on a string with a match strictly shrinks it:
the separating space and the nonempty matched attribute are dropped. -/
theorem subAll_length_lt (l : List Char) (tm : TagMatch)
    (h : findTagMatch l = some tm) : (subAll l).length < l.length := by
  rw [subAll_matched l tm h]
  obtain ⟨hd, hmid⟩ := findTagMatch_decomp l tm h
  have hlen := congrArg List.length hd
  simp only [List.length_append, List.length_cons] at hlen
  have hrec := subAll_length_le tm.post
  have hmid1 : 1 ≤ tm.mid.length := List.length_pos.mpr hmid
  simp only [List.length_append, List.length_cons]
  omega

/-- `clean_attributes` (lines 47-50): repeat `HTMLSTRIP.sub("<\1\2>", html)`
while `HTMLSTRIP.search(html)` still finds a match. -/
def cleanAttributes (l : List Char) : List Char :=
  match hm : findTagMatch l with
  | none => l
  | some _ => cleanAttributes (subAll l)
termination_by l.length
decreasing_by
  rename_i tm
  exact subAll_length_lt l tm hm

theorem cleanAttributes_fixed (l : List Char) (h : findTagMatch l = none) :
    cleanAttributes l = l := by
  rw [cleanAttributes.eq_def]
  split
  next => rfl
  next tm heq => rw [h] at heq; cases heq

theorem cleanAttributes_step (l : List Char) (tm : TagMatch)
    (h : findTagMatch l = some tm) :
    cleanAttributes l = cleanAttributes (subAll l) := by
  rw [cleanAttributes.eq_def]
  split
  next heq => rw [h] at heq; cases heq
  next tm' heq => rfl

/-- The loop only returns once the pattern no longer matches: its output is
a fixed point of the search. -/
theorem findTagMatch_cleanAttributes (l : List Char) :
    findTagMatch (cleanAttributes l) = none := by
  rcases hm : findTagMatch l with _ | tm
  · rw [cleanAttributes_fixed l hm, hm]
  · rw [cleanAttributes_step l tm hm]
    exact findTagMatch_cleanAttributes (subAll l)
termination_by l.length
decreasing_by exact subAll_length_lt l tm hm

/-- `clean_attributes` at the `String` level. -/
def clean_attributes (s : String) : String :=
  (cleanAttributes s.data).asString

theorem data_asString (l : List Char) : (List.asString l).data = l := rfl

/-- C9: the attribute stripper is idempotent: for every input string `s`,
`clean_attributes (clean_attributes s) = clean_attributes s`.  The loop
re-scans after each substitution round and only returns once `HTMLSTRIP`
no longer matches, so its output is a fixed point of the search and a
second run performs no substitution at all. -/
theorem C9_clean_attributes_idempotent (s : String) :
    clean_attributes (clean_attributes s) = clean_attributes s := by
  rw [clean_attributes, clean_attributes, data_asString,
    cleanAttributes_fixed _ (findTagMatch_cleanAttributes s.data)]

/-- Non-vacuity of the model, first sample: one loop round strips the
`style` attribute while keeping `id`, as Python's `clean_attributes` does
on this input. -/
theorem clean_attributes_sample1 :
    clean_attributes "<p style=\"color:red\" id=\"a\">hi</p>" = "<p id=\"a\">hi</p>" := by
  have h1 : findTagMatch "<p style=\"color:red\" id=\"a\">hi</p>".data =
      some ⟨[], ['p'], "style=\"color:red\"".data, " id=\"a\"".data, "hi</p>".data⟩ := by
    rfl
  have h2 : subAll "<p style=\"color:red\" id=\"a\">hi</p>".data = "<p id=\"a\">hi</p>".data := by
    rw [subAll_matched _ _ h1, subAll_none "hi</p>".data rfl]
    rfl
  rw [clean_attributes, cleanAttributes_step _ _ h1, h2,
    cleanAttributes_fixed "<p id=\"a\">hi</p>".data rfl]
  rfl

/-- Non-vacuity of the model, second sample: removing one attribute exposes
another match in the same tag, so the loop runs two substitution rounds
(`style` survives round one inside group 1, `width` is stripped; round two
strips `style`), matching Python's behavior on this input. -/
theorem clean_attributes_sample2 :
    clean_attributes "<p style=\"a\" width=\"b\">x</p>" = "<p>x</p>" := by
  have h1 : findTagMatch "<p style=\"a\" width=\"b\">x</p>".data =
      some ⟨[], "p style=\"a\"".data, "width=\"b\"".data, [], "x</p>".data⟩ := by
    rfl
  have h2 : subAll "<p style=\"a\" width=\"b\">x</p>".data = "<p style=\"a\">x</p>".data := by
    rw [subAll_matched _ _ h1, subAll_none "x</p>".data rfl]
    rfl
  have h3 : findTagMatch "<p style=\"a\">x</p>".data =
      some ⟨[], ['p'], "style=\"a\"".data, [], "x</p>".data⟩ := by
    rfl
  have h4 : subAll "<p style=\"a\">x</p>".data = "<p>x</p>".data := by
    rw [subAll_matched _ _ h3, subAll_none "x</p>".data rfl]
    rfl
  rw [clean_attributes, cleanAttributes_step _ _ h1, h2,
    cleanAttributes_step _ _ h3, h4,
    cleanAttributes_fixed "<p>x</p>".data rfl]
  rfl

end Readability
